import Mathlib

/-!
Verification of the auditable-dark-pool cryptographic core.

This file gives a shallow embedding, in Lean 4, of the arithmetic core of the
repository: the RLWE/BFV encryption engine (`demo-frontend/app/lib/rlwe.ts`),
the Shamir threshold reconstruction and RLWE decryption module, and the
Poseidon-based Merkle accumulator and identity key generation module, and
proves (or refutes) the specification claims about them.

Embedding conventions:
* JavaScript `bigint` values are embedded as `ℤ`, array indices as `ℕ`.
* Fixed-length coefficient arrays are embedded as functions `ℕ → ℤ` together
  with the array length; loops over them become folds over `List.range`.
* JavaScript `%` on `bigint` is truncated remainder (`Int.tmod`) and `/` is
  truncated division (`Int.tdiv`).  The ubiquitous source idiom
  `((x % q) + q) % q` is embedded as `jsMod x q`, written with Lean's
  Euclidean `%`: for `0 < q` the truncated-remainder composite and the
  Euclidean composite produce the same value (the first `%` lands in
  `(-q, q)`, adding `q` makes it positive, where truncated and Euclidean
  remainder agree), see `jsMod_eq_emod`.  Bare `%` / `/` applications on
  possibly-negative operands are embedded as `Int.tmod` / `Int.tdiv`.
* Functions whose source samples randomness internally (`rlweEncrypt`) are
  embedded with the sampled noise passed as explicit arguments.
* JavaScript exceptions (including `TypeError` from arithmetic on `undefined`
  after an out-of-bounds array read) are embedded by returning `none` in the
  `Option` monad; out-of-bounds reads use `List.get?`.
-/

namespace ADP

/-- Ring dimension `N = 1024` of `rlwe.ts` and the decryption module. -/
def N : ℕ := 1024

/-- Ciphertext modulus `RLWE_Q = 167772161n`. -/
def RLWE_Q : ℤ := 167772161

/-- Plaintext modulus `PLAINTEXT_MOD = 256n`. -/
def PLAINTEXT_MOD : ℤ := 256

/-- Scale `DELTA = RLWE_Q / PLAINTEXT_MOD` (bigint division of positives,
so truncated and Euclidean division agree; the value is `655360`). -/
def DELTA : ℤ := RLWE_Q / PLAINTEXT_MOD

/-- Number of plaintext slots `MSG_SLOTS = 64`. -/
def MSG_SLOTS : ℕ := 64

/-- BN254 scalar-field prime `BN254_P`. -/
def BN254_P : ℤ := 21888242871839275222246405745257275088548364400416034343698204186575808495617

/-- Embedding of the source idiom `((v % q) + q) % q` (the `mod` helper of
`rlweEncrypt` and the inline normalizations): written with Euclidean `%`,
which produces the same value as the JavaScript truncated `%` composite for
every `v` and every positive `q`. -/
def jsMod (v q : ℤ) : ℤ := (v % q + q) % q

theorem jsMod_eq_emod (v q : ℤ) (_hq : 0 < q) : jsMod v q = v % q := by
  unfold jsMod
  conv_lhs => rw [show v % q + q = v % q + q * 1 by ring]
  rw [Int.add_mul_emod_self_left, Int.emod_emod_of_dvd _ dvd_rfl]

theorem jsMod_eq_tmod_composite (v q : ℤ) (hq : 0 < q) :
    jsMod v q = (v.tmod q + q).tmod q := by
  have h3 : v.tmod q % q = v % q := by
    rw [Int.tmod_def, Int.sub_emod, Int.mul_emod_right, sub_zero, Int.emod_emod_of_dvd _ dvd_rfl]
  have hlow : -q < v.tmod q := by
    rcases le_or_lt 0 v with h | h
    · have h1 : v.tmod q = v % q := Int.tmod_eq_emod h (le_of_lt hq)
      have := Int.emod_nonneg v (ne_of_gt hq)
      omega
    · have h2 : v.tmod q = -((-v).tmod q) := by
        rw [Int.tmod_def, Int.tmod_def, Int.neg_tdiv]; ring
      have h1 : (-v).tmod q = (-v) % q := Int.tmod_eq_emod (by omega) (le_of_lt hq)
      have := Int.emod_lt_of_pos (-v) hq
      omega
  have h2 : (v.tmod q + q).tmod q = (v.tmod q + q) % q :=
    Int.tmod_eq_emod (by omega) (le_of_lt hq)
  rw [h2, jsMod_eq_emod v q hq,
    show v.tmod q + q = v.tmod q + q * 1 by ring, Int.add_mul_emod_self_left, h3]

theorem jsMod_nonneg (v q : ℤ) (hq : 0 < q) : 0 ≤ jsMod v q := by
  rw [jsMod_eq_emod v q hq]; exact Int.emod_nonneg v (ne_of_gt hq)

theorem jsMod_lt (v q : ℤ) (hq : 0 < q) : jsMod v q < q := by
  rw [jsMod_eq_emod v q hq]; exact Int.emod_lt_of_pos v hq

theorem jsMod_modEq (v q : ℤ) (hq : 0 < q) : jsMod v q ≡ v [ZMOD q] := by
  rw [jsMod_eq_emod v q hq]; exact Int.emod_emod_of_dvd v dvd_rfl

theorem jsMod_eq_of_modEq_of_range {v w q : ℤ} (hq : 0 < q) (h : v ≡ w [ZMOD q])
    (h0 : 0 ≤ v) (h1 : v < q) : v = jsMod w q := by
  rw [jsMod_eq_emod w q hq, ← h, Int.emod_eq_of_lt h0 h1]

/-!
### Negacyclic convolution

The two source loops (`negacyclicMulModQ`, `negacyclicMulInt`) run over all
index pairs `(i, j)` with `i, j < n` (outer `i`, inner `j`), and for each pair
add `a[i]*b[j]` into slot `i+j` when `i+j < n`, or subtract it from slot
`i+j-n` otherwise.  We embed one result slot `k` at a time: `convTerm`
gives the pair `(i, j)`'s signed contribution to slot `k` (zero for pairs
that target other slots), and the loop becomes a fold over the pair list in
iteration order.  The modular variant re-normalizes the accumulator with
`((acc + t) % q + q) % q` on every contributing step; folding the (zero)
contributions of non-contributing pairs through the same normalization does
not change the accumulator, because it is already normalized (likewise for
the pairs skipped by the zero-coefficient `continue` fast path).
-/

/-- Iteration order of the two nested source loops: outer `i`, inner `j`. -/
def pairList (n : ℕ) : List (ℕ × ℕ) :=
  (List.range n).flatMap (fun i => (List.range n).map (fun j => (i, j)))

/-- Signed contribution of the pair `(i, j)` to result slot `k` of a
negacyclic product of `a` and `b` (dimension `n`). -/
def convTerm (a b : ℕ → ℤ) (n k : ℕ) (ij : ℕ × ℕ) : ℤ :=
  if ij.1 + ij.2 = k then a ij.1 * b ij.2
  else if ij.1 + ij.2 = k + n then -(a ij.1 * b ij.2)
  else 0

/-- Embedding of `negacyclicMulModQ(a, b, n, q)` from `rlwe.ts` (the decryption
module contains an identical copy): slot `k` accumulates the contributions of
all pairs in loop order, normalizing with `((· % q) + q) % q` at each step. -/
def negacyclicMulModQ (a b : ℕ → ℤ) (n : ℕ) (q : ℤ) : ℕ → ℤ :=
  fun k => (pairList n).foldl (fun res ij => ((res + convTerm a b n k ij) % q + q) % q) 0

/-- Embedding of `negacyclicMulInt(a, b, n)` from `rlwe.ts`: the same loop
over unbounded integers, with no modular reduction. -/
def negacyclicMulInt (a b : ℕ → ℤ) (n : ℕ) : ℕ → ℤ :=
  fun k => (pairList n).foldl (fun res ij => res + convTerm a b n k ij) 0

/-- Closed form of one slot of the negacyclic product, as a double sum. -/
def ncSum (a b : ℕ → ℤ) (n k : ℕ) : ℤ :=
  ∑ i ∈ Finset.range n, ∑ j ∈ Finset.range n, convTerm a b n k (i, j)

theorem foldl_add_eq_sum {α : Type} (f : α → ℤ) (l : List α) (init : ℤ) :
    l.foldl (fun acc x => acc + f x) init = init + (l.map f).sum := by
  induction l generalizing init with
  | nil => simp
  | cons x xs ih => simp [ih, add_assoc]

theorem foldl_addmod_eq_sum {α : Type} (q : ℤ) (_hq : 0 < q) (f : α → ℤ) (l : List α)
    (init : ℤ) :
    l.foldl (fun acc x => ((acc + f x) % q + q) % q) (init % q) =
      (init + (l.map f).sum) % q := by
  induction l generalizing init with
  | nil => simp
  | cons x xs ih =>
    have step : ((init % q + f x) % q + q) % q = (init + f x) % q := by
      rw [Int.emod_add_emod, show init % q + f x + q = init % q + f x + q * 1 by ring,
        Int.add_mul_emod_self_left, Int.emod_add_emod]
    simp only [List.foldl_cons, step]
    rw [ih (init + f x), List.map_cons, List.sum_cons, add_assoc]

theorem sum_map_range {α : Type} [AddCommMonoid α] (n : ℕ) (g : ℕ → α) :
    ((List.range n).map g).sum = ∑ i ∈ Finset.range n, g i := by
  induction n with
  | zero => simp
  | succ m ih =>
    rw [List.range_succ, List.map_append, List.sum_append, Finset.sum_range_succ, ih]
    simp

theorem sum_flatMap {α β : Type} [AddCommMonoid β] (l : List α) (g : α → List β) :
    (l.flatMap g).sum = (l.map (fun x => (g x).sum)).sum := by
  induction l with
  | nil => simp
  | cons x xs ih => simp [List.flatMap_cons, List.sum_append, ih]

theorem sum_pairList {α : Type} [AddCommMonoid α] (n : ℕ) (f : ℕ × ℕ → α) :
    ((pairList n).map f).sum = ∑ i ∈ Finset.range n, ∑ j ∈ Finset.range n, f (i, j) := by
  unfold pairList
  rw [List.map_flatMap, sum_flatMap, sum_map_range]
  refine Finset.sum_congr rfl (fun i _ => ?_)
  rw [List.map_map, sum_map_range]
  rfl

theorem negacyclicMulInt_eq_ncSum (a b : ℕ → ℤ) (n k : ℕ) :
    negacyclicMulInt a b n k = ncSum a b n k := by
  unfold negacyclicMulInt ncSum
  rw [foldl_add_eq_sum, zero_add, sum_pairList]

theorem negacyclicMulModQ_eq_ncSum (a b : ℕ → ℤ) (n : ℕ) {q : ℤ} (hq : 0 < q) (k : ℕ) :
    negacyclicMulModQ a b n q k = ncSum a b n k % q := by
  unfold negacyclicMulModQ ncSum
  have h0 : (0 : ℤ) = 0 % q := by simp
  rw [h0, foldl_addmod_eq_sum q hq, zero_add, sum_pairList]

theorem negacyclicMulModQ_nonneg (a b : ℕ → ℤ) (n : ℕ) {q : ℤ} (hq : 0 < q) (k : ℕ) :
    0 ≤ negacyclicMulModQ a b n q k := by
  rw [negacyclicMulModQ_eq_ncSum a b n hq k]
  exact Int.emod_nonneg _ (ne_of_gt hq)

theorem negacyclicMulModQ_lt (a b : ℕ → ℤ) (n : ℕ) {q : ℤ} (hq : 0 < q) (k : ℕ) :
    negacyclicMulModQ a b n q k < q := by
  rw [negacyclicMulModQ_eq_ncSum a b n hq k]
  exact Int.emod_lt_of_pos _ hq

theorem negacyclicMulModQ_modEq (a b : ℕ → ℤ) (n : ℕ) {q : ℤ} (hq : 0 < q) (k : ℕ) :
    negacyclicMulModQ a b n q k ≡ ncSum a b n k [ZMOD q] := by
  rw [negacyclicMulModQ_eq_ncSum a b n hq k]
  exact Int.emod_emod_of_dvd _ dvd_rfl

/-!
### Algebraic properties of `ncSum`
-/

theorem ncSum_comm (a b : ℕ → ℤ) (n k : ℕ) : ncSum a b n k = ncSum b a n k := by
  unfold ncSum
  rw [Finset.sum_comm]
  refine Finset.sum_congr rfl (fun j _ => Finset.sum_congr rfl (fun i _ => ?_))
  unfold convTerm
  simp only [Nat.add_comm j i, mul_comm (a i) (b j)]

theorem sum_modEq {α : Type} (s : Finset α) (q : ℤ) (f g : α → ℤ)
    (h : ∀ x ∈ s, f x ≡ g x [ZMOD q]) :
    (∑ x ∈ s, f x) ≡ (∑ x ∈ s, g x) [ZMOD q] := by
  unfold Int.ModEq at *
  rw [Finset.sum_int_mod s q f, Finset.sum_int_mod s q g]
  congr 1
  exact Finset.sum_congr rfl h

theorem ncSum_congr_left {a a' : ℕ → ℤ} (b : ℕ → ℤ) {n : ℕ} {q : ℤ} (k : ℕ)
    (h : ∀ i < n, a i ≡ a' i [ZMOD q]) :
    ncSum a b n k ≡ ncSum a' b n k [ZMOD q] := by
  unfold ncSum
  refine sum_modEq _ q _ _ (fun i hi => sum_modEq _ q _ _ (fun j _ => ?_))
  have hia : a i ≡ a' i [ZMOD q] := h i (Finset.mem_range.mp hi)
  unfold convTerm
  split_ifs with h1 h2
  · exact hia.mul (Int.ModEq.refl _)
  · exact (hia.mul (Int.ModEq.refl _)).neg
  · rfl

theorem ncSum_congr_right (a : ℕ → ℤ) {b b' : ℕ → ℤ} {n : ℕ} {q : ℤ} (k : ℕ)
    (h : ∀ j < n, b j ≡ b' j [ZMOD q]) :
    ncSum a b n k ≡ ncSum a b' n k [ZMOD q] := by
  calc ncSum a b n k = ncSum b a n k := ncSum_comm a b n k
    _ ≡ ncSum b' a n k [ZMOD q] := ncSum_congr_left a k h
    _ = ncSum a b' n k := ncSum_comm b' a n k

theorem ncSum_add_right (a x y : ℕ → ℤ) (n k : ℕ) :
    ncSum a (fun j => x j + y j) n k = ncSum a x n k + ncSum a y n k := by
  unfold ncSum
  rw [← Finset.sum_add_distrib]
  refine Finset.sum_congr rfl (fun i _ => ?_)
  rw [← Finset.sum_add_distrib]
  refine Finset.sum_congr rfl (fun j _ => ?_)
  unfold convTerm
  split_ifs <;> ring

theorem ncSum_add_left (x y b : ℕ → ℤ) (n k : ℕ) :
    ncSum (fun i => x i + y i) b n k = ncSum x b n k + ncSum y b n k := by
  rw [ncSum_comm _ b, ncSum_comm x b, ncSum_comm y b]
  exact ncSum_add_right b x y n k

theorem ncSum_neg_left (x b : ℕ → ℤ) (n k : ℕ) :
    ncSum (fun i => -(x i)) b n k = -(ncSum x b n k) := by
  unfold ncSum
  rw [← Finset.sum_neg_distrib]
  refine Finset.sum_congr rfl (fun i _ => ?_)
  rw [← Finset.sum_neg_distrib]
  refine Finset.sum_congr rfl (fun j _ => ?_)
  show convTerm (fun i => -(x i)) b n k (i, j) = -(convTerm x b n k (i, j))
  unfold convTerm
  split_ifs <;> ring

/-- Slot `k < n` of the negacyclic product, as a single sum over `j`: the
surviving pair for column `j` is `(k - j, j)` (positive orientation) when
`j ≤ k`, and `(k + n - j, j)` (negative, folded) when `j > k`. -/
theorem ncSum_single (a b : ℕ → ℤ) {n k : ℕ} (hk : k < n) :
    ncSum a b n k =
      ∑ j ∈ Finset.range n, (if j ≤ k then a (k - j) * b j else -(a (k + n - j) * b j)) := by
  unfold ncSum
  rw [Finset.sum_comm]
  refine Finset.sum_congr rfl (fun j hj => ?_)
  have hjn : j < n := Finset.mem_range.mp hj
  by_cases hjk : j ≤ k
  · rw [if_pos hjk]
    calc ∑ i ∈ Finset.range n, convTerm a b n k (i, j)
        = convTerm a b n k (k - j, j) := by
          refine Finset.sum_eq_single (k - j) (fun i hi hne => ?_) (fun hni => ?_)
          · unfold convTerm
            have h1 : ¬ (i + j = k) := fun h => hne (by omega)
            have h2 : ¬ (i + j = k + n) := by
              have := Finset.mem_range.mp hi; omega
            simp [h1, h2]
          · exact absurd (Finset.mem_range.mpr (by omega)) hni
      _ = a (k - j) * b j := by
          unfold convTerm
          have h1 : k - j + j = k := by omega
          simp [h1]
  · rw [if_neg hjk]
    calc ∑ i ∈ Finset.range n, convTerm a b n k (i, j)
        = convTerm a b n k (k + n - j, j) := by
          refine Finset.sum_eq_single (k + n - j) (fun i hi hne => ?_) (fun hni => ?_)
          · unfold convTerm
            have h1 : ¬ (i + j = k) := by
              have := Finset.mem_range.mp hi; omega
            have h2 : ¬ (i + j = k + n) := fun h => hne (by omega)
            simp [h1, h2]
          · exact absurd (Finset.mem_range.mpr (by omega)) hni
      _ = -(a (k + n - j) * b j) := by
          have h1 : ¬ (k + n - j + j = k) := by omega
          have h2 : k + n - j + j = k + n := by omega
          simp only [convTerm]
          rw [if_neg h1, if_pos h2]

/-!
### Associativity of the negacyclic convolution

Written with the sign indicator `epsTerm i j u n` (`+1` when the pair `(i,j)`
feeds slot `u` directly, `-1` when it feeds it through the `X^n ≡ -1` fold,
`0` otherwise), both `(a*b)*c` and `a*(b*c)` expand to the same triple sum
with the three-fold sign indicator `delta3`.
-/

/-- Sign with which the coefficient pair `(i, j)` contributes to slot `u`. -/
def epsTerm (i j u n : ℕ) : ℤ :=
  if i + j = u then 1 else if i + j = u + n then -1 else 0

/-- Sign with which the coefficient triple `(i, j, m)` with index sum `s`
contributes to slot `k` of a double negacyclic product. -/
def delta3 (s k n : ℕ) : ℤ :=
  if s = k then 1 else if s = k + n then -1 else if s = k + 2 * n then 1 else 0

theorem convTerm_eq_eps (a b : ℕ → ℤ) (n k : ℕ) (ij : ℕ × ℕ) :
    convTerm a b n k ij = epsTerm ij.1 ij.2 k n * (a ij.1 * b ij.2) := by
  unfold convTerm epsTerm
  split_ifs <;> ring

theorem eps_collapse_left {i j m k n : ℕ} (hi : i < n) (hj : j < n) (hm : m < n)
    (hk : k < n) :
    ∑ u ∈ Finset.range n, epsTerm i j u n * epsTerm u m k n = delta3 (i + j + m) k n := by
  by_cases hij : i + j < n
  · calc ∑ u ∈ Finset.range n, epsTerm i j u n * epsTerm u m k n
        = epsTerm i j (i + j) n * epsTerm (i + j) m k n := by
          refine Finset.sum_eq_single (i + j) (fun u hu hne => ?_) (fun hni => ?_)
          · have h1 : ¬ (i + j = u) := fun h => hne h.symm
            have h2 : ¬ (i + j = u + n) := by omega
            unfold epsTerm
            rw [if_neg h1, if_neg h2, zero_mul]
          · exact absurd (Finset.mem_range.mpr hij) hni
      _ = delta3 (i + j + m) k n := by
          unfold epsTerm delta3
          split_ifs <;> omega
  · calc ∑ u ∈ Finset.range n, epsTerm i j u n * epsTerm u m k n
        = epsTerm i j (i + j - n) n * epsTerm (i + j - n) m k n := by
          refine Finset.sum_eq_single (i + j - n) (fun u hu hne => ?_) (fun hni => ?_)
          · have hun : u < n := Finset.mem_range.mp hu
            have h1 : ¬ (i + j = u) := by omega
            have h2 : ¬ (i + j = u + n) := by omega
            unfold epsTerm
            rw [if_neg h1, if_neg h2, zero_mul]
          · exact absurd (Finset.mem_range.mpr (by omega)) hni
      _ = delta3 (i + j + m) k n := by
          unfold epsTerm delta3
          split_ifs <;> omega

theorem eps_collapse_right {i j m k n : ℕ} (hi : i < n) (hj : j < n) (hm : m < n)
    (hk : k < n) :
    ∑ v ∈ Finset.range n, epsTerm j m v n * epsTerm i v k n = delta3 (i + j + m) k n := by
  by_cases hjm : j + m < n
  · calc ∑ v ∈ Finset.range n, epsTerm j m v n * epsTerm i v k n
        = epsTerm j m (j + m) n * epsTerm i (j + m) k n := by
          refine Finset.sum_eq_single (j + m) (fun v hv hne => ?_) (fun hni => ?_)
          · have h1 : ¬ (j + m = v) := fun h => hne h.symm
            have h2 : ¬ (j + m = v + n) := by omega
            unfold epsTerm
            rw [if_neg h1, if_neg h2, zero_mul]
          · exact absurd (Finset.mem_range.mpr hjm) hni
      _ = delta3 (i + j + m) k n := by
          unfold epsTerm delta3
          split_ifs <;> omega
  · calc ∑ v ∈ Finset.range n, epsTerm j m v n * epsTerm i v k n
        = epsTerm j m (j + m - n) n * epsTerm i (j + m - n) k n := by
          refine Finset.sum_eq_single (j + m - n) (fun v hv hne => ?_) (fun hni => ?_)
          · have hvn : v < n := Finset.mem_range.mp hv
            have h1 : ¬ (j + m = v) := by omega
            have h2 : ¬ (j + m = v + n) := by omega
            unfold epsTerm
            rw [if_neg h1, if_neg h2, zero_mul]
          · exact absurd (Finset.mem_range.mpr (by omega)) hni
      _ = delta3 (i + j + m) k n := by
          unfold epsTerm delta3
          split_ifs <;> omega

theorem sum_comm_inner {M : Type} [AddCommMonoid M] (s t v : Finset ℕ) (F : ℕ → ℕ → ℕ → M) :
    (∑ u ∈ s, ∑ i ∈ t, ∑ j ∈ v, F u i j) = ∑ i ∈ t, ∑ j ∈ v, ∑ u ∈ s, F u i j := by
  calc ∑ u ∈ s, ∑ i ∈ t, ∑ j ∈ v, F u i j
      = ∑ i ∈ t, ∑ u ∈ s, ∑ j ∈ v, F u i j := Finset.sum_comm
    _ = ∑ i ∈ t, ∑ j ∈ v, ∑ u ∈ s, F u i j :=
        Finset.sum_congr rfl (fun i _ => Finset.sum_comm)

theorem sum_comm_inner4 {M : Type} [AddCommMonoid M] (s t v w : Finset ℕ)
    (F : ℕ → ℕ → ℕ → ℕ → M) :
    (∑ u ∈ s, ∑ m ∈ t, ∑ i ∈ v, ∑ j ∈ w, F u m i j)
      = ∑ i ∈ v, ∑ j ∈ w, ∑ m ∈ t, ∑ u ∈ s, F u m i j := by
  calc ∑ u ∈ s, ∑ m ∈ t, ∑ i ∈ v, ∑ j ∈ w, F u m i j
      = ∑ m ∈ t, ∑ u ∈ s, ∑ i ∈ v, ∑ j ∈ w, F u m i j := Finset.sum_comm
    _ = ∑ m ∈ t, ∑ i ∈ v, ∑ j ∈ w, ∑ u ∈ s, F u m i j :=
        Finset.sum_congr rfl (fun m _ => sum_comm_inner s v w (fun u i j => F u m i j))
    _ = ∑ i ∈ v, ∑ m ∈ t, ∑ j ∈ w, ∑ u ∈ s, F u m i j := Finset.sum_comm
    _ = ∑ i ∈ v, ∑ j ∈ w, ∑ m ∈ t, ∑ u ∈ s, F u m i j :=
        Finset.sum_congr rfl (fun i _ => Finset.sum_comm)

/-- Associativity of the negacyclic convolution over `ℤ` (slots below `n`). -/
theorem ncSum_assoc (a b c : ℕ → ℤ) {n k : ℕ} (hk : k < n) :
    ncSum (fun u => ncSum a b n u) c n k = ncSum a (fun v => ncSum b c n v) n k := by
  have lhsT : ncSum (fun u => ncSum a b n u) c n k
      = ∑ i ∈ Finset.range n, ∑ j ∈ Finset.range n, ∑ m ∈ Finset.range n,
          (∑ u ∈ Finset.range n, epsTerm i j u n * epsTerm u m k n) * (a i * b j * c m) := by
    unfold ncSum
    calc ∑ u ∈ Finset.range n, ∑ m ∈ Finset.range n, convTerm (fun u => ncSum a b n u) c n k (u, m)
        = ∑ u ∈ Finset.range n, ∑ m ∈ Finset.range n, ∑ i ∈ Finset.range n, ∑ j ∈ Finset.range n,
            epsTerm i j u n * epsTerm u m k n * (a i * b j * c m) := by
          refine Finset.sum_congr rfl (fun u _ => Finset.sum_congr rfl (fun m _ => ?_))
          rw [convTerm_eq_eps]
          show epsTerm u m k n * (ncSum a b n u * c m) = _
          unfold ncSum
          rw [Finset.sum_mul, Finset.mul_sum]
          refine Finset.sum_congr rfl (fun i _ => ?_)
          rw [Finset.sum_mul, Finset.mul_sum]
          refine Finset.sum_congr rfl (fun j _ => ?_)
          rw [convTerm_eq_eps]
          ring
      _ = ∑ i ∈ Finset.range n, ∑ j ∈ Finset.range n, ∑ m ∈ Finset.range n,
            ∑ u ∈ Finset.range n, epsTerm i j u n * epsTerm u m k n * (a i * b j * c m) :=
          sum_comm_inner4 _ _ _ _ _
      _ = _ := by
          refine Finset.sum_congr rfl (fun i _ => Finset.sum_congr rfl (fun j _ =>
            Finset.sum_congr rfl (fun m _ => ?_)))
          rw [Finset.sum_mul]
  have rhsT : ncSum a (fun v => ncSum b c n v) n k
      = ∑ i ∈ Finset.range n, ∑ j ∈ Finset.range n, ∑ m ∈ Finset.range n,
          (∑ v ∈ Finset.range n, epsTerm j m v n * epsTerm i v k n) * (a i * b j * c m) := by
    unfold ncSum
    calc ∑ i ∈ Finset.range n, ∑ v ∈ Finset.range n, convTerm a (fun v => ncSum b c n v) n k (i, v)
        = ∑ i ∈ Finset.range n, ∑ v ∈ Finset.range n, ∑ j ∈ Finset.range n, ∑ m ∈ Finset.range n,
            epsTerm j m v n * epsTerm i v k n * (a i * b j * c m) := by
          refine Finset.sum_congr rfl (fun i _ => Finset.sum_congr rfl (fun v _ => ?_))
          rw [convTerm_eq_eps]
          show epsTerm i v k n * (a i * ncSum b c n v) = _
          unfold ncSum
          rw [Finset.mul_sum, Finset.mul_sum]
          refine Finset.sum_congr rfl (fun j _ => ?_)
          rw [Finset.mul_sum, Finset.mul_sum]
          refine Finset.sum_congr rfl (fun m _ => ?_)
          rw [convTerm_eq_eps]
          ring
      _ = ∑ i ∈ Finset.range n, ∑ j ∈ Finset.range n, ∑ m ∈ Finset.range n,
            ∑ v ∈ Finset.range n, epsTerm j m v n * epsTerm i v k n * (a i * b j * c m) :=
          Finset.sum_congr rfl (fun i _ => sum_comm_inner _ _ _ _)
      _ = _ := by
          refine Finset.sum_congr rfl (fun i _ => Finset.sum_congr rfl (fun j _ =>
            Finset.sum_congr rfl (fun m _ => ?_)))
          rw [Finset.sum_mul]
  rw [lhsT, rhsT]
  refine Finset.sum_congr rfl (fun i hi => Finset.sum_congr rfl (fun j hj =>
    Finset.sum_congr rfl (fun m hm => ?_)))
  rw [eps_collapse_left (Finset.mem_range.mp hi) (Finset.mem_range.mp hj)
      (Finset.mem_range.mp hm) hk,
    eps_collapse_right (Finset.mem_range.mp hi) (Finset.mem_range.mp hj)
      (Finset.mem_range.mp hm) hk]

/-- Coefficient bound: if all coefficients of `a` and `b` are bounded by `A`
and `B` in absolute value, each slot of the negacyclic product is bounded by
`n * (A * B)`. -/
theorem ncSum_abs_le (a b : ℕ → ℤ) {n k : ℕ} (hk : k < n) {A B : ℤ}
    (ha : ∀ i < n, |a i| ≤ A) (hb : ∀ j < n, |b j| ≤ B) :
    |ncSum a b n k| ≤ n * (A * B) := by
  rw [ncSum_single a b hk]
  calc |∑ j ∈ Finset.range n, (if j ≤ k then a (k - j) * b j else -(a (k + n - j) * b j))|
      ≤ ∑ j ∈ Finset.range n, |if j ≤ k then a (k - j) * b j else -(a (k + n - j) * b j)| :=
        Finset.abs_sum_le_sum_abs _ _
    _ ≤ ∑ _j ∈ Finset.range n, A * B := by
        refine Finset.sum_le_sum (fun j hj => ?_)
        have hjn : j < n := Finset.mem_range.mp hj
        have hA0 : 0 ≤ A := le_trans (abs_nonneg _) (ha 0 (by omega))
        split_ifs with hjk
        · rw [abs_mul]
          exact mul_le_mul (ha _ (by omega)) (hb _ hjn) (abs_nonneg _) hA0
        · rw [abs_neg, abs_mul]
          exact mul_le_mul (ha _ (by omega)) (hb _ hjn) (abs_nonneg _) hA0
    _ = n * (A * B) := by rw [Finset.sum_const, Finset.card_range, nsmul_eq_mul]

/-!
### Matrix rows, inner products, encryption and quotient witnesses (`rlwe.ts`)
-/

/-- Embedding of `negacyclicMatrixRowModQ(poly, k, n, q)`: row `k` of the
negacyclic matrix of `poly`, each entry normalized with `((· % q) + q) % q`
(here `jsMod`).  The source index `idx = k - j` is non-negative exactly when
`j ≤ k`; in the negative branch `idx + n` is `k + n - j`. -/
def negacyclicMatrixRowModQ (poly : ℕ → ℤ) (k n : ℕ) (q : ℤ) : ℕ → ℤ :=
  fun j => if j ≤ k then jsMod (poly (k - j)) q else jsMod (-(poly (k + n - j))) q

/-- Embedding of `innerProductInt(row, r)`: plain integer inner product over
the `n` entries of the row. -/
def innerProductInt (row r : ℕ → ℤ) (n : ℕ) : ℤ :=
  (List.range n).foldl (fun sum i => sum + row i * r i) 0

/-- Embedding of the inner-product loops inside `rlweEncrypt`, which reduce
the accumulator with `((· % q) + q) % q` at every step. -/
def ipModQ (row r : ℕ → ℤ) (n : ℕ) (q : ℤ) : ℤ :=
  (List.range n).foldl (fun ip j => ((ip + row j * r j) % q + q) % q) 0

theorem innerProductInt_eq_sum (row r : ℕ → ℤ) (n : ℕ) :
    innerProductInt row r n = ∑ j ∈ Finset.range n, row j * r j := by
  unfold innerProductInt
  rw [foldl_add_eq_sum, zero_add, sum_map_range]

theorem ipModQ_eq_sum (row r : ℕ → ℤ) (n : ℕ) {q : ℤ} (hq : 0 < q) :
    ipModQ row r n q = (∑ j ∈ Finset.range n, row j * r j) % q := by
  unfold ipModQ
  have h0 : (0 : ℤ) = 0 % q := by simp
  rw [h0, foldl_addmod_eq_sum q hq, zero_add, sum_map_range]

/-- Row entries are congruent to the signed folded coefficients of `poly`. -/
theorem row_entry_modEq (poly : ℕ → ℤ) (k n : ℕ) {q : ℤ} (hq : 0 < q) (j : ℕ) :
    negacyclicMatrixRowModQ poly k n q j ≡
      (if j ≤ k then poly (k - j) else -(poly (k + n - j))) [ZMOD q] := by
  unfold negacyclicMatrixRowModQ
  split_ifs
  · exact jsMod_modEq _ q hq
  · exact jsMod_modEq _ q hq

/-- Key congruence: the integer inner product of matrix row `k` of `poly`
with any `x` is congruent, mod `q`, to slot `k` of the negacyclic product of
`poly` and `x`. -/
theorem row_ip_modEq_ncSum (poly x : ℕ → ℤ) {n k : ℕ} (hk : k < n) {q : ℤ} (hq : 0 < q) :
    innerProductInt (negacyclicMatrixRowModQ poly k n q) x n ≡ ncSum poly x n k [ZMOD q] := by
  rw [innerProductInt_eq_sum, ncSum_single poly x hk]
  refine sum_modEq _ q _ _ (fun j _ => ?_)
  have h := (row_entry_modEq poly k n hq j).mul (Int.ModEq.refl (x j))
  split_ifs at h ⊢ with hjk
  · exact h
  · exact h.trans (by rw [neg_mul])

/-- Same congruence for the step-reducing inner product of `rlweEncrypt`. -/
theorem ipModQ_modEq_ncSum (poly x : ℕ → ℤ) {n k : ℕ} (hk : k < n) {q : ℤ} (hq : 0 < q) :
    ipModQ (negacyclicMatrixRowModQ poly k n q) x n q ≡ ncSum poly x n k [ZMOD q] := by
  have h1 : ipModQ (negacyclicMatrixRowModQ poly k n q) x n q ≡
      innerProductInt (negacyclicMatrixRowModQ poly k n q) x n [ZMOD q] := by
    rw [ipModQ_eq_sum _ _ _ hq, innerProductInt_eq_sum]
    exact Int.emod_emod_of_dvd _ dvd_rfl
  exact h1.trans (row_ip_modEq_ncSum poly x hk hq)

/-- Embedding of `encodeFieldToBytes(value, numBytes)[i]`: byte slot `i` is
`(value >> 8*i) & 0xFF`; on `ℤ`, the arithmetic right shift is Euclidean
division by `2^(8*i)` and the mask is the Euclidean remainder mod `256`
(both agree with the two's-complement semantics of bigint `>>` / `&` for
negative values as well). -/
def encodeFieldToBytes (value : ℤ) (i : ℕ) : ℤ :=
  (value / 2 ^ (8 * i)) % 256

/-- Embedding of the message layout of `rlweEncrypt`: a 64-slot array holding
the 32 little-endian bytes of `ownerX` followed by those of `ownerY`. -/
def encodeMsg (ownerX ownerY : ℤ) : ℕ → ℤ :=
  fun i => if i < 32 then encodeFieldToBytes ownerX i
    else if i < 64 then encodeFieldToBytes ownerY (i - 32)
    else 0

/-- Embedding of the `c0Sparse` component of `rlweEncrypt` (the sampled noise
`rSigned`, `e1Signed` and the message are passed explicitly; the source draws
the noise internally and computes `msg` from `ownerX`/`ownerY`):
`c0[i] = (ip(row_i(b), r mod q) + e1[i] mod q + Δ·msg[i]) mod q`. -/
def rlweEncryptC0 (b rS e1S msg : ℕ → ℤ) : ℕ → ℤ :=
  fun i => jsMod
    (ipModQ (negacyclicMatrixRowModQ b i N RLWE_Q) (fun j => jsMod (rS j) RLWE_Q) N RLWE_Q
      + jsMod (e1S i) RLWE_Q + DELTA * msg i) RLWE_Q

/-- Embedding of the `c1` component of `rlweEncrypt`:
`c1[i] = (ip(row_i(a), r mod q) + e2[i] mod q) mod q`. -/
def rlweEncryptC1 (a rS e2S : ℕ → ℤ) : ℕ → ℤ :=
  fun i => jsMod
    (ipModQ (negacyclicMatrixRowModQ a i N RLWE_Q) (fun j => jsMod (rS j) RLWE_Q) N RLWE_Q
      + jsMod (e2S i) RLWE_Q) RLWE_Q

/-- Embedding of `fullVal` for `k0` inside `computeQuotients`: the exact
integer inner product of row `i` of `b` with the signed noise, plus
`e1[i] + Δ·msg[i]`. -/
def fullVal0 (b rS e1S msg : ℕ → ℤ) (i : ℕ) : ℤ :=
  innerProductInt (negacyclicMatrixRowModQ b i N RLWE_Q) rS N + e1S i + DELTA * msg i

/-- Embedding of `fullVal` for `k1` inside `computeQuotients`. -/
def fullVal1 (a rS e2S : ℕ → ℤ) (i : ℕ) : ℤ :=
  innerProductInt (negacyclicMatrixRowModQ a i N RLWE_Q) rS N + e2S i

/-- Embedding of the `k0` witnesses of `computeQuotients`:
`k0[i] = (fullVal - c0Val) / RLWE_Q` with bigint (truncated) division. -/
def computeK0 (b rS e1S msg c0 : ℕ → ℤ) (i : ℕ) : ℤ :=
  (fullVal0 b rS e1S msg i - c0 i).tdiv RLWE_Q

/-- Embedding of the `k1` witnesses of `computeQuotients`. -/
def computeK1 (a rS e2S c1 : ℕ → ℤ) (i : ℕ) : ℤ :=
  (fullVal1 a rS e2S i - c1 i).tdiv RLWE_Q

theorem RLWE_Q_pos : (0 : ℤ) < RLWE_Q := by norm_num [RLWE_Q]

/-- Congruence form of the ciphertext component `c0`. -/
theorem rlweEncryptC0_modEq (b rS e1S msg : ℕ → ℤ) {i : ℕ} (hi : i < N) :
    rlweEncryptC0 b rS e1S msg i ≡
      ncSum b rS N i + e1S i + DELTA * msg i [ZMOD RLWE_Q] := by
  have hq := RLWE_Q_pos
  unfold rlweEncryptC0
  refine (jsMod_modEq _ _ hq).trans ?_
  have h1 : ipModQ (negacyclicMatrixRowModQ b i N RLWE_Q) (fun j => jsMod (rS j) RLWE_Q) N RLWE_Q
      ≡ ncSum b rS N i [ZMOD RLWE_Q] := by
    refine (ipModQ_modEq_ncSum b _ hi hq).trans ?_
    exact ncSum_congr_right b i (fun j _ => jsMod_modEq (rS j) RLWE_Q hq)
  exact (h1.add (jsMod_modEq (e1S i) RLWE_Q hq)).add (Int.ModEq.refl (DELTA * msg i))

/-- Congruence form of the ciphertext component `c1`. -/
theorem rlweEncryptC1_modEq (a rS e2S : ℕ → ℤ) {i : ℕ} (hi : i < N) :
    rlweEncryptC1 a rS e2S i ≡ ncSum a rS N i + e2S i [ZMOD RLWE_Q] := by
  have hq := RLWE_Q_pos
  unfold rlweEncryptC1
  refine (jsMod_modEq _ _ hq).trans ?_
  have h1 : ipModQ (negacyclicMatrixRowModQ a i N RLWE_Q) (fun j => jsMod (rS j) RLWE_Q) N RLWE_Q
      ≡ ncSum a rS N i [ZMOD RLWE_Q] := by
    refine (ipModQ_modEq_ncSum a _ hi hq).trans ?_
    exact ncSum_congr_right a i (fun j _ => jsMod_modEq (rS j) RLWE_Q hq)
  exact h1.add (jsMod_modEq (e2S i) RLWE_Q hq)

/-- The exact value `fullVal0` is congruent to `c0` mod `Q`. -/
theorem fullVal0_modEq_c0 (b rS e1S msg : ℕ → ℤ) {i : ℕ} (hi : i < N) :
    fullVal0 b rS e1S msg i ≡ rlweEncryptC0 b rS e1S msg i [ZMOD RLWE_Q] := by
  have hq := RLWE_Q_pos
  refine Int.ModEq.trans ?_ (rlweEncryptC0_modEq b rS e1S msg hi).symm
  unfold fullVal0
  exact ((row_ip_modEq_ncSum b rS hi hq).add (Int.ModEq.refl (e1S i))).add
    (Int.ModEq.refl (DELTA * msg i))

/-- The exact value `fullVal1` is congruent to `c1` mod `Q`. -/
theorem fullVal1_modEq_c1 (a rS e2S : ℕ → ℤ) {i : ℕ} (hi : i < N) :
    fullVal1 a rS e2S i ≡ rlweEncryptC1 a rS e2S i [ZMOD RLWE_Q] := by
  have hq := RLWE_Q_pos
  refine Int.ModEq.trans ?_ (rlweEncryptC1_modEq a rS e2S hi).symm
  unfold fullVal1
  exact (row_ip_modEq_ncSum a rS hi hq).add (Int.ModEq.refl (e2S i))

/-- C3: for every polynomial `poly` (length `N = 1024`), every index
`i < N`, and every ring element `x` with coefficients in `[0, Q)`, the inner
product of `negacyclicMatrixRowModQ(poly, i, N, Q)` with `x`, reduced mod
`Q`, equals coefficient `i` of `negacyclicMulModQ(poly, x, N, Q)`. -/
theorem C3_matrix_row_equivalence (poly x : ℕ → ℤ) (i : ℕ) (hi : i < N)
    (hx : ∀ j < N, 0 ≤ x j ∧ x j < RLWE_Q) :
    jsMod (innerProductInt (negacyclicMatrixRowModQ poly i N RLWE_Q) x N) RLWE_Q
      = negacyclicMulModQ poly x N RLWE_Q i := by
  have hq := RLWE_Q_pos
  rw [jsMod_eq_emod _ _ hq, negacyclicMulModQ_eq_ncSum poly x N hq i]
  exact row_ip_modEq_ncSum poly x hi hq

/-- Witness for C3 at the zero polynomial and zero ring element, index 0. -/
theorem C3_matrix_row_equivalence_witness :
    ((0 < N) ∧ (∀ j < N, (0:ℤ) ≤ 0 ∧ (0:ℤ) < RLWE_Q)) ∧
      jsMod (innerProductInt (negacyclicMatrixRowModQ (fun _ => 0) 0 N RLWE_Q)
          (fun _ => 0) N) RLWE_Q
        = negacyclicMulModQ (fun _ => 0) (fun _ => 0) N RLWE_Q 0 :=
  ⟨⟨by norm_num [N], fun j _ => by norm_num [RLWE_Q]⟩,
    C3_matrix_row_equivalence (fun _ => 0) (fun _ => 0) 0 (by norm_num [N])
      (fun j _ => by norm_num [RLWE_Q])⟩

/-- C2: for every ciphertext produced by `rlweEncrypt` from noise `rSigned`,
`e1Signed`, `e2Signed` and message `msg` (the byte encoding of
`ownerX`/`ownerY`), the quotient witnesses of `computeQuotients` on the same
inputs satisfy `k0[i]*Q = full0[i] - c0[i]` for `i < 64` and
`k1[i]*Q = full1[i] - c1[i]` for `i < 1024` exactly, where `full0`/`full1`
are the exact-integer inner products plus noise plus `Δ*msg[i]`. -/
theorem C2_quotient_exactness (a b rS e1S e2S : ℕ → ℤ) (ownerX ownerY : ℤ) :
    (∀ i < MSG_SLOTS,
      computeK0 b rS e1S (encodeMsg ownerX ownerY)
          (rlweEncryptC0 b rS e1S (encodeMsg ownerX ownerY)) i * RLWE_Q
        = fullVal0 b rS e1S (encodeMsg ownerX ownerY) i
            - rlweEncryptC0 b rS e1S (encodeMsg ownerX ownerY) i)
    ∧ (∀ i < N,
      computeK1 a rS e2S (rlweEncryptC1 a rS e2S) i * RLWE_Q
        = fullVal1 a rS e2S i - rlweEncryptC1 a rS e2S i) := by
  constructor
  · intro i hi
    have hiN : i < N := lt_of_lt_of_le hi (by norm_num [MSG_SLOTS, N])
    have hdvd : RLWE_Q ∣ fullVal0 b rS e1S (encodeMsg ownerX ownerY) i
        - rlweEncryptC0 b rS e1S (encodeMsg ownerX ownerY) i :=
      (fullVal0_modEq_c0 b rS e1S (encodeMsg ownerX ownerY) hiN).symm.dvd
    unfold computeK0
    exact Int.tdiv_mul_cancel hdvd
  · intro i hi
    have hdvd : RLWE_Q ∣ fullVal1 a rS e2S i - rlweEncryptC1 a rS e2S i :=
      (fullVal1_modEq_c1 a rS e2S hi).symm.dvd
    unfold computeK1
    exact Int.tdiv_mul_cancel hdvd

/-- Witness for C2 at all-zero public key, noise and owner values, index 0
of both witness families. -/
theorem C2_quotient_exactness_witness :
    ((0 < MSG_SLOTS) ∧
      computeK0 (fun _ => 0) (fun _ => 0) (fun _ => 0) (encodeMsg 0 0)
          (rlweEncryptC0 (fun _ => 0) (fun _ => 0) (fun _ => 0) (encodeMsg 0 0)) 0 * RLWE_Q
        = fullVal0 (fun _ => 0) (fun _ => 0) (fun _ => 0) (encodeMsg 0 0) 0
            - rlweEncryptC0 (fun _ => 0) (fun _ => 0) (fun _ => 0) (encodeMsg 0 0) 0)
    ∧ ((0 < N) ∧
      computeK1 (fun _ => 0) (fun _ => 0) (fun _ => 0)
          (rlweEncryptC1 (fun _ => 0) (fun _ => 0) (fun _ => 0)) 0 * RLWE_Q
        = fullVal1 (fun _ => 0) (fun _ => 0) (fun _ => 0) 0
            - rlweEncryptC1 (fun _ => 0) (fun _ => 0) (fun _ => 0) 0) :=
  ⟨⟨by norm_num [MSG_SLOTS],
      (C2_quotient_exactness (fun _ => 0) (fun _ => 0) (fun _ => 0) (fun _ => 0)
        (fun _ => 0) 0 0).1 0 (by norm_num [MSG_SLOTS])⟩,
    ⟨by norm_num [N],
      (C2_quotient_exactness (fun _ => 0) (fun _ => 0) (fun _ => 0) (fun _ => 0)
        (fun _ => 0) 0 0).2 0 (by norm_num [N])⟩⟩

/-!
### Decryption (`rlwe_decrypt` module) and `centeredMod`
-/

/-- Embedding of `centeredMod(v, q)`: normalize into `[0, q)` with the
`((· % q) + q) % q` composite, then subtract `q` when the result exceeds
`q / 2` (bigint division; for the positive moduli in use, truncated and
Euclidean division of `q` by `2` agree). -/
def centeredMod (v q : ℤ) : ℤ :=
  if jsMod v q > q / 2 then jsMod v q - q else jsMod v q

/-- Helper: truncated remainder is congruent to the dividend. -/
theorem tmod_emod (a b : ℤ) : a.tmod b % b = a % b := by
  rw [Int.tmod_def, Int.sub_emod, Int.mul_emod_right, sub_zero, Int.emod_emod_of_dvd _ dvd_rfl]

/-- Helper: truncated remainder negates with the dividend. -/
theorem neg_tmod_eq (a b : ℤ) : (-a).tmod b = -(a.tmod b) := by
  rw [Int.tmod_def, Int.tmod_def, Int.neg_tdiv]; ring

/-- Helper: truncated remainder lies in `(-b, b)` for positive `b`. -/
theorem tmod_bounds (a : ℤ) {b : ℤ} (hb : 0 < b) : -b < a.tmod b ∧ a.tmod b < b := by
  refine ⟨?_, Int.tmod_lt_of_pos a hb⟩
  rcases le_or_lt 0 a with h | h
  · have := Int.tmod_nonneg b h
    omega
  · have h2 : a.tmod b = -((-a).tmod b) := by rw [neg_tmod_eq, neg_neg]
    have h3 : (-a).tmod b < b := Int.tmod_lt_of_pos (-a) hb
    omega

/-- C8: for every integer `v` and positive modulus `q`, `centeredMod(v, q)`
is congruent to `v` mod `q` and lies in the half-open interval
`(-q/2, q/2]` (stated multiplicatively as `-q < 2*c ∧ 2*c ≤ q`, which for
odd `q` is the interval `[-(q-1)/2, (q-1)/2]`). -/
theorem C8_centeredMod_spec (v q : ℤ) (hq : 0 < q) :
    centeredMod v q ≡ v [ZMOD q]
      ∧ -q < 2 * centeredMod v q ∧ 2 * centeredMod v q ≤ q := by
  unfold centeredMod
  have hw0 : 0 ≤ jsMod v q := jsMod_nonneg v q hq
  have hw1 : jsMod v q < q := jsMod_lt v q hq
  have hdiv : 2 * (q / 2) = q - q % 2 := by have := Int.ediv_add_emod q 2; omega
  have hmod2 : q % 2 = 0 ∨ q % 2 = 1 := Int.emod_two_eq q
  refine ⟨?_, ?_⟩
  · split_ifs with h
    · have hsub : (jsMod v q - q) % q = jsMod v q % q := by
        rw [Int.sub_emod, Int.emod_self, sub_zero, Int.emod_emod_of_dvd _ dvd_rfl]
      exact hsub.trans (jsMod_modEq v q hq)
    · exact jsMod_modEq v q hq
  · split_ifs with h <;> omega

/-- Witness for C8 at `v = -7`, `q = 5`. -/
theorem C8_centeredMod_spec_witness :
    (0 < (5:ℤ)) ∧ (centeredMod (-7) 5 ≡ -7 [ZMOD 5]
      ∧ -(5:ℤ) < 2 * centeredMod (-7) 5 ∧ 2 * centeredMod (-7) 5 ≤ 5) :=
  ⟨by norm_num, C8_centeredMod_spec (-7) 5 (by norm_num)⟩

/-- Embedding of the per-slot decoding of `rlweDecrypt`:
`val = Number(((nc * 10) / Δ + (nc >= 0 ? 5 : -5)) / 10) % 256` followed by
`((val % 256) + 256) % 256`, with bigint/Number `%` and `/` truncated. -/
def decodeSlot (nc : ℤ) : ℤ :=
  ((((((nc * 10).tdiv DELTA + (if 0 ≤ nc then 5 else -5)).tdiv 10).tmod
      PLAINTEXT_MOD).tmod 256) + 256).tmod 256

/-- Embedding of `rlweDecrypt(c0Sparse, c1, skModQ)`: multiply `sk` by `c1`
negacyclically, recover each of the 64 message bytes by centering and
rounded division by `Δ`, and reassemble the two 32-byte little-endian
field elements (`x << 8*i` is `x * 2^(8*i)`, and `& 0xff` is `% 256` on the
non-negative recovered bytes). -/
def rlweDecrypt (c0 c1 sk : ℕ → ℤ) : ℤ × ℤ :=
  (∑ i ∈ Finset.range 32,
      (decodeSlot (centeredMod ((c0 i + negacyclicMulModQ sk c1 N RLWE_Q i).tmod RLWE_Q)
          RLWE_Q) % 256) * 2 ^ (8 * i),
   ∑ i ∈ Finset.range 32,
      (decodeSlot (centeredMod
          ((c0 (32 + i) + negacyclicMulModQ sk c1 N RLWE_Q (32 + i)).tmod RLWE_Q)
          RLWE_Q) % 256) * 2 ^ (8 * i))

theorem DELTA_eq : DELTA = 655360 := by norm_num [DELTA, RLWE_Q, PLAINTEXT_MOD]

/-- Rounding core: the truncated-division rounding pipeline recovers `t`
from `Δ*t + d` whenever `|d| ≤ 65534`. -/
theorem decode_core (t d : ℤ) (hd : -65534 ≤ d ∧ d ≤ 65534) :
    (((DELTA * t + d) * 10).tdiv DELTA
        + (if 0 ≤ DELTA * t + d then 5 else -5)).tdiv 10 = t := by
  rw [DELTA_eq]
  set x := (655360 : ℤ) * t + d with hx
  rcases le_or_lt 0 x with hpos | hneg
  · rw [if_pos hpos]
    have ht0 : 0 ≤ t := by omega
    have hq1 : (x * 10).tdiv 655360 = x * 10 / 655360 :=
      Int.tdiv_eq_ediv (by omega) (by norm_num)
    have hq1b := Int.ediv_add_emod (x * 10) 655360
    have hq1c : 0 ≤ x * 10 % 655360 := Int.emod_nonneg _ (by norm_num)
    have hq1d : x * 10 % 655360 < 655360 := Int.emod_lt_of_pos _ (by norm_num)
    set q1 := x * 10 / 655360 with hq1def
    have hq1range : 10 * t - 1 ≤ q1 ∧ q1 ≤ 10 * t := by
      have hx10 : x * 10 = 6553600 * t + 10 * d := by rw [hx]; ring
      omega
    have hq2 : (q1 + 5).tdiv 10 = (q1 + 5) / 10 :=
      Int.tdiv_eq_ediv (by omega) (by norm_num)
    have hq2b := Int.ediv_add_emod (q1 + 5) 10
    have hq2c : 0 ≤ (q1 + 5) % 10 := Int.emod_nonneg _ (by norm_num)
    have hq2d : (q1 + 5) % 10 < 10 := Int.emod_lt_of_pos _ (by norm_num)
    rw [hq1, hq2]
    omega
  · rw [if_neg (by omega)]
    have ht0 : t ≤ 0 := by omega
    have hq1b := Int.ediv_add_emod (-(x * 10)) 655360
    have hq1c : 0 ≤ -(x * 10) % 655360 := Int.emod_nonneg _ (by norm_num)
    have hq1d : -(x * 10) % 655360 < 655360 := Int.emod_lt_of_pos _ (by norm_num)
    set u := -(x * 10) / 655360 with hudef
    have huran : -(10 * t) - 1 ≤ u ∧ u ≤ -(10 * t) := by
      have hx10 : -(x * 10) = 6553600 * (-t) + -(10 * d) := by rw [hx]; ring
      omega
    have hq1 : (x * 10).tdiv 655360 = -u := by
      rw [hudef, ← Int.tdiv_eq_ediv (by omega) (by norm_num : (0:ℤ) ≤ 655360),
        ← Int.neg_tdiv, neg_neg]
    have hq2 : (-u + -5).tdiv 10 = -((u + 5) / 10) := by
      rw [show -u + -5 = -(u + 5) by ring, Int.neg_tdiv,
        Int.tdiv_eq_ediv (by omega) (by norm_num)]
    have hq2b := Int.ediv_add_emod (u + 5) 10
    have hq2c : 0 ≤ (u + 5) % 10 := Int.emod_nonneg _ (by norm_num)
    have hq2d : (u + 5) % 10 < 10 := Int.emod_lt_of_pos _ (by norm_num)
    rw [hq1, hq2]
    omega

/-- Final normalization of a decoded slot: if `t ≡ m (mod 256)` with
`0 ≤ m < 256`, the source's `((val % 256) + 256) % 256` chain yields `m`. -/
theorem tmod_decode (t m : ℤ) (hm : 0 ≤ m ∧ m < 256) (hcong : t ≡ m [ZMOD 256]) :
    (((t.tmod PLAINTEXT_MOD).tmod 256) + 256).tmod 256 = m := by
  have hPM : PLAINTEXT_MOD = 256 := by norm_num [PLAINTEXT_MOD]
  rw [hPM]
  have hb : (0:ℤ) < 256 := by norm_num
  have hv := tmod_bounds t hb
  set v := t.tmod 256 with hvdef
  have hv2 : v.tmod 256 = v := by
    rcases le_or_lt 0 v with h | h
    · exact Int.tmod_eq_of_lt h hv.2
    · rw [show v = -(-v) by ring, neg_tmod_eq, Int.tmod_eq_of_lt (by omega) (by omega)]
  rw [hv2, Int.tmod_eq_emod (by omega) (by norm_num : (0:ℤ) ≤ 256)]
  have h1 : (v + 256) % 256 = v % 256 := by
    rw [show v + 256 = v + 256 * 1 by ring, Int.add_mul_emod_self_left]
  have h2 : v % 256 = t % 256 := tmod_emod t 256
  have h3 : t % 256 = m % 256 := hcong
  have h4 : m % 256 = m := Int.emod_eq_of_lt hm.1 hm.2
  rw [h1, h2, h3, h4]

/-- `centeredMod` depends only on the residue class of its argument. -/
theorem centeredMod_congr {x y q : ℤ} (hq : 0 < q) (h : x ≡ y [ZMOD q]) :
    centeredMod x q = centeredMod y q := by
  unfold centeredMod
  rw [jsMod_eq_emod x q hq, jsMod_eq_emod y q hq, h]

/-- Per-slot decoding correctness: for a byte `m` and a noise offset `d`
within the rounding margin, decoding the centered representative of
`Δ*m + d` recovers `m` exactly. -/
theorem decodeSlot_decodes (m d : ℤ) (hm : 0 ≤ m ∧ m ≤ 255) (hd : -60000 ≤ d ∧ d ≤ 60000) :
    decodeSlot (centeredMod (DELTA * m + d) RLWE_Q) = m := by
  have hq := RLWE_Q_pos
  have hQ : RLWE_Q = 167772161 := by norm_num [RLWE_Q]
  have hD := DELTA_eq
  have hhalf : RLWE_Q / 2 = 83886080 := by norm_num [RLWE_Q]
  have hcent : centeredMod (DELTA * m + d) RLWE_Q = DELTA * m + d ∨
      centeredMod (DELTA * m + d) RLWE_Q = DELTA * (m - 256) + (d - 1) := by
    unfold centeredMod
    rw [jsMod_eq_emod _ _ hq, hD, hQ]
    rcases le_or_lt 0 ((655360:ℤ) * m + d) with hx | hx
    · rw [Int.emod_eq_of_lt hx (by omega)]
      split_ifs with h
      · right; ring
      · left; rfl
    · have hsh : ((655360:ℤ) * m + d) % 167772161 = 655360 * m + d + 167772161 := by
        have h0 : ((655360:ℤ) * m + d) % 167772161
            = (655360 * m + d + 167772161 * 1) % 167772161 :=
          (Int.add_mul_emod_self_left _ _ _).symm
        rw [h0, mul_one, Int.emod_eq_of_lt (by omega) (by omega)]
      rw [hsh]
      split_ifs with h
      · left; ring
      · exfalso; omega
  rcases hcent with h | h <;> rw [h] <;> unfold decodeSlot
  · rw [decode_core m d ⟨by omega, by omega⟩]
    exact tmod_decode m m ⟨hm.1, by omega⟩ (Int.ModEq.refl m)
  · rw [decode_core (m - 256) (d - 1) ⟨by omega, by omega⟩]
    refine tmod_decode (m - 256) m ⟨hm.1, by omega⟩ ?_
    show (m - 256) % 256 = m % 256
    rw [Int.sub_emod, Int.emod_self, sub_zero, Int.emod_emod_of_dvd _ dvd_rfl]

/-- Little-endian radix-256 reconstruction: summing the first `k` bytes of
`v` scaled by their place values gives `v mod 2^(8k)`. -/
theorem radix_reconstruct (v : ℤ) (k : ℕ) :
    ∑ i ∈ Finset.range k, ((v / 2 ^ (8 * i)) % 256) * 2 ^ (8 * i) = v % 2 ^ (8 * k) := by
  induction k with
  | zero => simp
  | succ n ih =>
    rw [Finset.sum_range_succ, ih]
    set B : ℤ := 2 ^ (8 * n) with hB
    have hBpos : (0:ℤ) < B := by positivity
    have h1 := Int.ediv_add_emod v B
    have h2 := Int.ediv_add_emod (v / B) 256
    have hr1 : 0 ≤ v % B := Int.emod_nonneg _ (ne_of_gt hBpos)
    have hr2 : v % B < B := Int.emod_lt_of_pos _ hBpos
    have hs1 : 0 ≤ (v / B) % 256 := Int.emod_nonneg _ (by norm_num)
    have hs2 : (v / B) % 256 < 256 := Int.emod_lt_of_pos _ (by norm_num)
    have hpow : (2:ℤ) ^ (8 * (n + 1)) = B * 256 := by
      rw [hB, show 8 * (n + 1) = 8 * n + 8 by ring, pow_add]
      norm_num
    rw [hpow]
    have key : v % (B * 256) = v % B + (v / B % 256) * B :=
      calc v % (B * 256)
          = (B * (v / B) + v % B) % (B * 256) := by rw [h1]
        _ = (B * (256 * (v / B / 256) + v / B % 256) + v % B) % (B * 256) := by rw [h2]
        _ = ((v % B + (v / B % 256) * B) + (B * 256) * (v / B / 256)) % (B * 256) := by
            ring_nf
        _ = (v % B + (v / B % 256) * B) % (B * 256) := by
            rw [Int.add_mul_emod_self_left]
        _ = v % B + (v / B % 256) * B := by
            have hub : (v / B % 256) * B ≤ 255 * B :=
              mul_le_mul_of_nonneg_right (by omega) (le_of_lt hBpos)
            have hlb : 0 ≤ (v / B % 256) * B := mul_nonneg hs1 (le_of_lt hBpos)
            refine Int.emod_eq_of_lt (by omega) (by nlinarith)
    rw [key]

/-- Byte slots are genuine bytes. -/
theorem encodeMsg_range (ownerX ownerY : ℤ) (i : ℕ) :
    0 ≤ encodeMsg ownerX ownerY i ∧ encodeMsg ownerX ownerY i ≤ 255 := by
  unfold encodeMsg encodeFieldToBytes
  split_ifs with h1 h2
  · have := Int.emod_nonneg (ownerX / 2 ^ (8 * i)) (show (256:ℤ) ≠ 0 by norm_num)
    have := Int.emod_lt_of_pos (ownerX / 2 ^ (8 * i)) (show (0:ℤ) < 256 by norm_num)
    omega
  · have := Int.emod_nonneg (ownerY / 2 ^ (8 * (i - 32))) (show (256:ℤ) ≠ 0 by norm_num)
    have := Int.emod_lt_of_pos (ownerY / 2 ^ (8 * (i - 32))) (show (0:ℤ) < 256 by norm_num)
    omega
  · omega

/-- Central decryption congruence: for a key pair with
`b ≡ -(a*s) + e (mod Q)` (ring products), slot `i` of
`c0 + sk*c1` is congruent to `Δ*msg[i]` plus the small error
`e1[i] + (e*r)[i] + (s*e2)[i]`. -/
theorem decrypt_slot_modEq (a s e rS e1S e2S b msg : ℕ → ℤ) {i : ℕ} (hi : i < N)
    (hb : ∀ u < N, b u ≡ -(ncSum a s N u) + e u [ZMOD RLWE_Q]) :
    rlweEncryptC0 b rS e1S msg i
      + negacyclicMulModQ (fun u => jsMod (s u) RLWE_Q) (rlweEncryptC1 a rS e2S) N RLWE_Q i
    ≡ DELTA * msg i + (e1S i + ncSum e rS N i + ncSum s e2S N i) [ZMOD RLWE_Q] := by
  have hq := RLWE_Q_pos
  have hc0 : rlweEncryptC0 b rS e1S msg i
      ≡ ncSum b rS N i + e1S i + DELTA * msg i [ZMOD RLWE_Q] :=
    rlweEncryptC0_modEq b rS e1S msg hi
  have hbr : ncSum b rS N i
      ≡ -(ncSum (fun u => ncSum a s N u) rS N i) + ncSum e rS N i [ZMOD RLWE_Q] := by
    refine (ncSum_congr_left rS i (fun u hu => hb u hu)).trans ?_
    have hsplit : ncSum (fun u => -(ncSum a s N u) + e u) rS N i
        = ncSum (fun u => -(ncSum a s N u)) rS N i + ncSum e rS N i :=
      ncSum_add_left _ _ rS N i
    rw [hsplit, ncSum_neg_left]
  have hsk : negacyclicMulModQ (fun u => jsMod (s u) RLWE_Q) (rlweEncryptC1 a rS e2S) N RLWE_Q i
      ≡ ncSum (fun u => ncSum a s N u) rS N i + ncSum s e2S N i [ZMOD RLWE_Q] := by
    refine (negacyclicMulModQ_modEq _ _ N hq i).trans ?_
    have h1 : ncSum (fun u => jsMod (s u) RLWE_Q) (rlweEncryptC1 a rS e2S) N i
        ≡ ncSum s (rlweEncryptC1 a rS e2S) N i [ZMOD RLWE_Q] :=
      ncSum_congr_left _ i (fun u _ => jsMod_modEq (s u) RLWE_Q hq)
    have h2 : ncSum s (rlweEncryptC1 a rS e2S) N i
        ≡ ncSum s (fun j => ncSum a rS N j + e2S j) N i [ZMOD RLWE_Q] :=
      ncSum_congr_right s i (fun j hj => rlweEncryptC1_modEq a rS e2S hj)
    have h3 : ncSum s (fun j => ncSum a rS N j + e2S j) N i
        = ncSum s (fun j => ncSum a rS N j) N i + ncSum s e2S N i :=
      ncSum_add_right s _ e2S N i
    have h4 : ncSum s (fun j => ncSum a rS N j) N i
        = ncSum (fun u => ncSum a s N u) rS N i := by
      calc ncSum s (fun j => ncSum a rS N j) N i
          = ncSum (fun j => ncSum a rS N j) s N i := ncSum_comm _ _ N i
        _ = ncSum a (fun v => ncSum rS s N v) N i := ncSum_assoc a rS s hi
        _ = ncSum a (fun v => ncSum s rS N v) N i := by
            have hcomm : (fun v => ncSum rS s N v) = (fun v => ncSum s rS N v) :=
              funext (fun v => ncSum_comm rS s N v)
            rw [hcomm]
        _ = ncSum (fun u => ncSum a s N u) rS N i := (ncSum_assoc a s rS hi).symm
    exact (h1.trans h2).trans (by rw [h3, h4])
  refine (hc0.add hsk).trans ?_
  have hmid : ncSum b rS N i + e1S i + DELTA * msg i
      + (ncSum (fun u => ncSum a s N u) rS N i + ncSum s e2S N i)
      ≡ (-(ncSum (fun u => ncSum a s N u) rS N i) + ncSum e rS N i) + e1S i + DELTA * msg i
      + (ncSum (fun u => ncSum a s N u) rS N i + ncSum s e2S N i) [ZMOD RLWE_Q] :=
    Int.ModEq.add (Int.ModEq.add (Int.ModEq.add hbr (Int.ModEq.refl _)) (Int.ModEq.refl _))
      (Int.ModEq.refl _)
  refine hmid.trans ?_
  have hfin : (-(ncSum (fun u => ncSum a s N u) rS N i) + ncSum e rS N i) + e1S i
      + DELTA * msg i + (ncSum (fun u => ncSum a s N u) rS N i + ncSum s e2S N i)
      = DELTA * msg i + (e1S i + ncSum e rS N i + ncSum s e2S N i) := by ring
  rw [hfin]

/-- C1 (amended): for every pair of 254-bit field elements `ownerX`,
`ownerY`, every valid RLWE public key `(a, b)` with
`b ≡ -(a*s) + e (mod Q)` for a secret `s` and key noise `e` with
coefficients in `[-3, 3]`, and every choice of encryption noise `r`, `e1`,
`e2` in `[-3, 3]`, decrypting the ciphertext produced by `rlweEncrypt` with
`rlweDecrypt` using `s` (reduced into `[0, Q)`) returns exactly
`(ownerX, ownerY)`, with `Q = 167772161`, `Δ = 655360` and plaintext
modulus `256`. -/
theorem C1_roundtrip_amended (a s e rS e1S e2S : ℕ → ℤ) (ownerX ownerY : ℤ)
    (hX : 0 ≤ ownerX ∧ ownerX < 2 ^ 254) (hY : 0 ≤ ownerY ∧ ownerY < 2 ^ 254)
    (hs : ∀ u < N, -3 ≤ s u ∧ s u ≤ 3) (he : ∀ u < N, -3 ≤ e u ∧ e u ≤ 3)
    (hr : ∀ u < N, -3 ≤ rS u ∧ rS u ≤ 3)
    (he1 : ∀ u < MSG_SLOTS, -3 ≤ e1S u ∧ e1S u ≤ 3)
    (he2 : ∀ u < N, -3 ≤ e2S u ∧ e2S u ≤ 3)
    (b : ℕ → ℤ)
    (hb : ∀ u < N, b u ≡ -(negacyclicMulInt a s N u) + e u [ZMOD RLWE_Q]) :
    rlweDecrypt (rlweEncryptC0 b rS e1S (encodeMsg ownerX ownerY))
        (rlweEncryptC1 a rS e2S) (fun u => jsMod (s u) RLWE_Q)
      = (ownerX, ownerY) := by
  have hq := RLWE_Q_pos
  have hb' : ∀ u < N, b u ≡ -(ncSum a s N u) + e u [ZMOD RLWE_Q] := by
    intro u hu
    have h := hb u hu
    rwa [negacyclicMulInt_eq_ncSum] at h
  have hslot : ∀ i < MSG_SLOTS,
      decodeSlot (centeredMod
          ((rlweEncryptC0 b rS e1S (encodeMsg ownerX ownerY) i
            + negacyclicMulModQ (fun u => jsMod (s u) RLWE_Q) (rlweEncryptC1 a rS e2S)
                N RLWE_Q i).tmod RLWE_Q) RLWE_Q)
        = encodeMsg ownerX ownerY i := by
    intro i hi64
    have hiN : i < N := lt_of_lt_of_le hi64 (by norm_num [MSG_SLOTS, N])
    have hcong := decrypt_slot_modEq a s e rS e1S e2S b (encodeMsg ownerX ownerY) hiN hb'
    have hc0r : 0 ≤ rlweEncryptC0 b rS e1S (encodeMsg ownerX ownerY) i := by
      unfold rlweEncryptC0
      exact jsMod_nonneg _ _ hq
    have hskr : 0 ≤ negacyclicMulModQ (fun u => jsMod (s u) RLWE_Q)
        (rlweEncryptC1 a rS e2S) N RLWE_Q i := negacyclicMulModQ_nonneg _ _ N hq i
    have htm : (rlweEncryptC0 b rS e1S (encodeMsg ownerX ownerY) i
          + negacyclicMulModQ (fun u => jsMod (s u) RLWE_Q) (rlweEncryptC1 a rS e2S)
              N RLWE_Q i).tmod RLWE_Q
        = (rlweEncryptC0 b rS e1S (encodeMsg ownerX ownerY) i
          + negacyclicMulModQ (fun u => jsMod (s u) RLWE_Q) (rlweEncryptC1 a rS e2S)
              N RLWE_Q i) % RLWE_Q :=
      Int.tmod_eq_emod (by omega) (le_of_lt hq)
    have hcm : centeredMod ((rlweEncryptC0 b rS e1S (encodeMsg ownerX ownerY) i
          + negacyclicMulModQ (fun u => jsMod (s u) RLWE_Q) (rlweEncryptC1 a rS e2S)
              N RLWE_Q i).tmod RLWE_Q) RLWE_Q
        = centeredMod (DELTA * encodeMsg ownerX ownerY i
            + (e1S i + ncSum e rS N i + ncSum s e2S N i)) RLWE_Q := by
      refine centeredMod_congr hq ?_
      rw [htm]
      exact (Int.emod_emod_of_dvd _ dvd_rfl).trans hcong
    rw [hcm]
    have habs1 : |ncSum e rS N i| ≤ (N : ℤ) * (3 * 3) :=
      ncSum_abs_le e rS hiN (fun u hu => abs_le.mpr (he u hu))
        (fun u hu => abs_le.mpr (hr u hu))
    have habs2 : |ncSum s e2S N i| ≤ (N : ℤ) * (3 * 3) :=
      ncSum_abs_le s e2S hiN (fun u hu => abs_le.mpr (hs u hu))
        (fun u hu => abs_le.mpr (he2 u hu))
    have hNv : (N : ℤ) = 1024 := by norm_num [N]
    rw [hNv] at habs1 habs2
    have hb1 := abs_le.mp habs1
    have hb2 := abs_le.mp habs2
    have hb3 := he1 i hi64
    exact decodeSlot_decodes _ _ (encodeMsg_range ownerX ownerY i) (by omega)
  unfold rlweDecrypt
  have hfst : (∑ i ∈ Finset.range 32,
      (decodeSlot (centeredMod ((rlweEncryptC0 b rS e1S (encodeMsg ownerX ownerY) i
          + negacyclicMulModQ (fun u => jsMod (s u) RLWE_Q) (rlweEncryptC1 a rS e2S)
              N RLWE_Q i).tmod RLWE_Q) RLWE_Q) % 256) * 2 ^ (8 * i)) = ownerX := by
    have hsum : ∀ i ∈ Finset.range 32,
        (decodeSlot (centeredMod ((rlweEncryptC0 b rS e1S (encodeMsg ownerX ownerY) i
            + negacyclicMulModQ (fun u => jsMod (s u) RLWE_Q) (rlweEncryptC1 a rS e2S)
                N RLWE_Q i).tmod RLWE_Q) RLWE_Q) % 256) * 2 ^ (8 * i)
          = ((ownerX / 2 ^ (8 * i)) % 256) * 2 ^ (8 * i) := by
      intro i hi
      have hi32 : i < 32 := Finset.mem_range.mp hi
      rw [hslot i (lt_of_lt_of_le hi32 (by norm_num [MSG_SLOTS]))]
      have hmi : encodeMsg ownerX ownerY i = (ownerX / 2 ^ (8 * i)) % 256 := by
        unfold encodeMsg encodeFieldToBytes
        rw [if_pos hi32]
      rw [hmi, Int.emod_emod_of_dvd _ dvd_rfl]
    rw [Finset.sum_congr rfl hsum, radix_reconstruct]
    have h256 : (2:ℤ) ^ (8 * 32) = 2 ^ 256 := by norm_num
    rw [h256, Int.emod_eq_of_lt hX.1 (by have := hX.2; omega)]
  have hsnd : (∑ i ∈ Finset.range 32,
      (decodeSlot (centeredMod ((rlweEncryptC0 b rS e1S (encodeMsg ownerX ownerY) (32 + i)
          + negacyclicMulModQ (fun u => jsMod (s u) RLWE_Q) (rlweEncryptC1 a rS e2S)
              N RLWE_Q (32 + i)).tmod RLWE_Q) RLWE_Q) % 256) * 2 ^ (8 * i)) = ownerY := by
    have hsum : ∀ i ∈ Finset.range 32,
        (decodeSlot (centeredMod ((rlweEncryptC0 b rS e1S (encodeMsg ownerX ownerY) (32 + i)
            + negacyclicMulModQ (fun u => jsMod (s u) RLWE_Q) (rlweEncryptC1 a rS e2S)
                N RLWE_Q (32 + i)).tmod RLWE_Q) RLWE_Q) % 256) * 2 ^ (8 * i)
          = ((ownerY / 2 ^ (8 * i)) % 256) * 2 ^ (8 * i) := by
      intro i hi
      have hi32 : i < 32 := Finset.mem_range.mp hi
      rw [hslot (32 + i) (by unfold MSG_SLOTS; omega)]
      have hmi : encodeMsg ownerX ownerY (32 + i) = (ownerY / 2 ^ (8 * i)) % 256 := by
        unfold encodeMsg encodeFieldToBytes
        rw [if_neg (by omega), if_pos (by omega)]
        have h32 : 32 + i - 32 = i := by omega
        rw [h32]
      rw [hmi, Int.emod_emod_of_dvd _ dvd_rfl]
    rw [Finset.sum_congr rfl hsum, radix_reconstruct]
    have h256 : (2:ℤ) ^ (8 * 32) = 2 ^ 256 := by norm_num
    rw [h256, Int.emod_eq_of_lt hY.1 (by have := hY.2; omega)]
  rw [Prod.mk.injEq]
  exact ⟨hfst, hsnd⟩

theorem int_eq_of_modEq_of_ranges {x y q : ℤ} (h : x ≡ y [ZMOD q]) (hx0 : 0 ≤ x)
    (hx1 : x < q) (hy0 : 0 ≤ y) (hy1 : y < q) : x = y := by
  have h1 : x % q = x := Int.emod_eq_of_lt hx0 hx1
  have h2 : y % q = y := Int.emod_eq_of_lt hy0 hy1
  unfold Int.ModEq at h
  omega

/-- Negacyclic product with a scaled delta function on the left collapses. -/
theorem ncSum_delta_left (c : ℤ) (x : ℕ → ℤ) {n k : ℕ} (hk : k < n) :
    ncSum (fun u => if u = 0 then c else 0) x n k = c * x k := by
  rw [ncSum_single _ x hk]
  calc ∑ j ∈ Finset.range n,
        (if j ≤ k then (if k - j = 0 then c else 0) * x j
         else -((if k + n - j = 0 then c else 0) * x j))
      = (if k ≤ k then (if k - k = 0 then c else 0) * x k
         else -((if k + n - k = 0 then c else 0) * x k)) := by
        refine Finset.sum_eq_single k (fun j hj hne => ?_) (fun hk2 => ?_)
        · by_cases hjk : j ≤ k
          · rw [if_pos hjk, if_neg (by omega), zero_mul]
          · rw [if_neg hjk]
            have hne2 : ¬ (k + n - j = 0) := by
              have := Finset.mem_range.mp hj; omega
            rw [if_neg hne2, zero_mul, neg_zero]
        · exact absurd (Finset.mem_range.mpr hk) hk2
    _ = c * x k := by simp

theorem ncMulInt_zero_left (b : ℕ → ℤ) (n k : ℕ) :
    negacyclicMulInt (fun _ => 0) b n k = 0 := by
  rw [negacyclicMulInt_eq_ncSum]
  unfold ncSum convTerm
  simp

/-- Witness for the amended C1 at the all-zero key, noise and owners. -/
theorem C1_roundtrip_amended_witness :
    (((0:ℤ) ≤ 0 ∧ (0:ℤ) < 2 ^ 254)
      ∧ (∀ u < N, -3 ≤ (0:ℤ) ∧ (0:ℤ) ≤ 3)
      ∧ (∀ u < N, (0:ℤ) ≡ -(negacyclicMulInt (fun _ => 0) (fun _ => 0) N u) + 0 [ZMOD RLWE_Q]))
    ∧ rlweDecrypt (rlweEncryptC0 (fun _ => 0) (fun _ => 0) (fun _ => 0) (encodeMsg 0 0))
        (rlweEncryptC1 (fun _ => 0) (fun _ => 0) (fun _ => 0))
        (fun u => jsMod (0:ℤ) RLWE_Q) = (0, 0) := by
  have hzero : ∀ u, u < N → (0:ℤ) ≡ -(negacyclicMulInt (fun _ => 0) (fun _ => 0) N u) + 0
      [ZMOD RLWE_Q] := by
    intro u _
    rw [ncMulInt_zero_left]
    norm_num
  refine ⟨⟨⟨le_refl 0, by positivity⟩, fun u _ => by norm_num, hzero⟩, ?_⟩
  exact C1_roundtrip_amended (fun _ => 0) (fun _ => 0) (fun _ => 0) (fun _ => 0)
    (fun _ => 0) (fun _ => 0) 0 0 ⟨le_refl 0, by positivity⟩ ⟨le_refl 0, by positivity⟩
    (fun u _ => by norm_num) (fun u _ => by norm_num) (fun u _ => by norm_num)
    (fun u _ => by norm_num) (fun u _ => by norm_num) (fun _ => 0) hzero

/-- Counterexample data for C1: a public key whose `a` has one large
coefficient, the delta-function secret/noise, and zero owner values. -/
def cexA : ℕ → ℤ := fun k => if k = 0 then 1000000 else 0

/-- Delta-function ring element, used as both the secret `s` and the
encryption randomness `r` of the C1 counterexample. -/
def cexS : ℕ → ℤ := fun k => if k = 0 then 1 else 0

/-- All-zero noise for the C1 counterexample. -/
def cexZero : ℕ → ℤ := fun _ => 0

theorem cexA_range (i : ℕ) : 0 ≤ cexA i ∧ cexA i < RLWE_Q := by
  unfold cexA
  split_ifs <;> norm_num [RLWE_Q]

theorem encodeMsg_zero (i : ℕ) : encodeMsg 0 0 i = 0 := by
  unfold encodeMsg encodeFieldToBytes
  split_ifs <;> simp

/-- Counterexample to C1 as stated: with the valid public key
`a = cexA`, `b = cexA` satisfying `b = a*s + e` for the in-range secret
`s = cexS` and zero key noise, and the in-range encryption noise
`r = cexS`, `e1 = e2 = 0`, encrypting the owner pair `(0, 0)` and
decrypting with the matching secret key does not return `(0, 0)` (the
first recovered byte is `3`). -/
theorem C1_counterexample :
    (∀ k < N, cexA k ≡ negacyclicMulInt cexA cexS N k + cexZero k [ZMOD RLWE_Q])
    ∧ (∀ k < N, -3 ≤ cexS k ∧ cexS k ≤ 3)
    ∧ (∀ k < N, cexZero k = 0)
    ∧ rlweDecrypt (rlweEncryptC0 cexA cexS cexZero (encodeMsg 0 0))
        (rlweEncryptC1 cexA cexS cexZero)
        (fun u => jsMod (cexS u) RLWE_Q) ≠ (0, 0) := by
  have hq := RLWE_Q_pos
  have hdeltaL : ∀ (x : ℕ → ℤ) (k : ℕ), k < N → ncSum cexS x N k = x k := by
    intro x k hk
    calc ncSum cexS x N k
        = ncSum (fun u => if u = 0 then (1:ℤ) else 0) x N k := rfl
      _ = 1 * x k := ncSum_delta_left 1 x hk
      _ = x k := one_mul (x k)
  have hdeltaR : ∀ (x : ℕ → ℤ) (k : ℕ), k < N → ncSum x cexS N k = x k := by
    intro x k hk
    rw [ncSum_comm]
    exact hdeltaL x k hk
  have hkey : ∀ k < N, cexA k ≡ negacyclicMulInt cexA cexS N k + cexZero k [ZMOD RLWE_Q] := by
    intro k hk
    rw [negacyclicMulInt_eq_ncSum, hdeltaR cexA k hk]
    unfold cexZero
    norm_num
  have hc0 : ∀ i, i < N → rlweEncryptC0 cexA cexS cexZero (encodeMsg 0 0) i = cexA i := by
    intro i hiN
    have h1 := rlweEncryptC0_modEq cexA cexS cexZero (encodeMsg 0 0) hiN
    rw [encodeMsg_zero i, mul_zero, add_zero, hdeltaR cexA i hiN] at h1
    have h2 : cexA i + cexZero i = cexA i := by unfold cexZero; ring
    rw [h2] at h1
    refine int_eq_of_modEq_of_ranges h1 ?_ ?_ (cexA_range i).1 (cexA_range i).2
    · unfold rlweEncryptC0
      exact jsMod_nonneg _ _ hq
    · unfold rlweEncryptC0
      exact jsMod_lt _ _ hq
  have hc1 : ∀ i, i < N → rlweEncryptC1 cexA cexS cexZero i = cexA i := by
    intro i hiN
    have h1 := rlweEncryptC1_modEq cexA cexS cexZero hiN
    rw [hdeltaR cexA i hiN] at h1
    have h2 : cexA i + cexZero i = cexA i := by unfold cexZero; ring
    rw [h2] at h1
    refine int_eq_of_modEq_of_ranges h1 ?_ ?_ (cexA_range i).1 (cexA_range i).2
    · unfold rlweEncryptC1
      exact jsMod_nonneg _ _ hq
    · unfold rlweEncryptC1
      exact jsMod_lt _ _ hq
  have hskfun : (fun u => jsMod (cexS u) RLWE_Q) = cexS := by
    funext u
    unfold cexS
    split_ifs <;> rw [jsMod_eq_emod _ _ hq, Int.emod_eq_of_lt (by norm_num) (by norm_num [RLWE_Q])]
  have hskc1 : ∀ i, i < N → negacyclicMulModQ cexS (rlweEncryptC1 cexA cexS cexZero)
      N RLWE_Q i = cexA i := by
    intro i hiN
    rw [negacyclicMulModQ_eq_ncSum _ _ N hq i,
      hdeltaL (rlweEncryptC1 cexA cexS cexZero) i hiN, hc1 i hiN]
    exact Int.emod_eq_of_lt (cexA_range i).1 (cexA_range i).2
  have hterm : ∀ i, i < 32 →
      decodeSlot (centeredMod ((rlweEncryptC0 cexA cexS cexZero (encodeMsg 0 0) i
          + negacyclicMulModQ (fun u => jsMod (cexS u) RLWE_Q)
              (rlweEncryptC1 cexA cexS cexZero) N RLWE_Q i).tmod RLWE_Q) RLWE_Q)
        = (if i = 0 then 3 else 0) := by
    intro i hi32
    have hiN : i < N := by unfold N; omega
    rw [hskfun, hc0 i hiN, hskc1 i hiN]
    unfold cexA
    by_cases h0 : i = 0
    · subst h0
      norm_num
      decide
    · rw [if_neg h0, if_neg h0]
      decide
  have hfst : (rlweDecrypt (rlweEncryptC0 cexA cexS cexZero (encodeMsg 0 0))
      (rlweEncryptC1 cexA cexS cexZero) (fun u => jsMod (cexS u) RLWE_Q)).1 = 3 := by
    show (∑ i ∈ Finset.range 32,
        (decodeSlot (centeredMod ((rlweEncryptC0 cexA cexS cexZero (encodeMsg 0 0) i
            + negacyclicMulModQ (fun u => jsMod (cexS u) RLWE_Q)
                (rlweEncryptC1 cexA cexS cexZero) N RLWE_Q i).tmod RLWE_Q) RLWE_Q) % 256)
          * 2 ^ (8 * i)) = 3
    have hcongr : ∀ i ∈ Finset.range 32,
        (decodeSlot (centeredMod ((rlweEncryptC0 cexA cexS cexZero (encodeMsg 0 0) i
            + negacyclicMulModQ (fun u => jsMod (cexS u) RLWE_Q)
                (rlweEncryptC1 cexA cexS cexZero) N RLWE_Q i).tmod RLWE_Q) RLWE_Q) % 256)
          * 2 ^ (8 * i) = (if i = 0 then 3 else 0) := by
      intro i hi
      rw [hterm i (Finset.mem_range.mp hi)]
      by_cases h0 : i = 0
      · subst h0
        norm_num
      · rw [if_neg h0]
        simp
    rw [Finset.sum_congr rfl hcongr]
    refine (Finset.sum_eq_single 0 (fun i _ hne => if_neg hne) (fun h0 =>
      absurd (Finset.mem_range.mpr (by norm_num)) h0)).trans (by norm_num)
  refine ⟨hkey, fun k _ => by unfold cexS; split_ifs <;> norm_num,
    fun k _ => rfl, fun hcontra => ?_⟩
  have h3 : (3:ℤ) = (0, 0).1 := by rw [← hfst, hcontra]
  norm_num at h3

/-!
### Shamir reconstruction (`rlwe_decrypt` module)
-/

/-- Exponent `BN254_P - 2` used by the modular-inverse computation, as a
natural number literal. -/
def shamirExp : ℕ := 21888242871839275222246405745257275088548364400416034343698204186575808495615

theorem shamirExp_eq : (shamirExp : ℤ) = BN254_P - 2 := by norm_num [shamirExp, BN254_P]

theorem shamirExp_pos : 0 < shamirExp := by norm_num [shamirExp]

/-- Embedding of the `while` loop of `modPow(base, exp, mod)`: on each
iteration, multiply the result by the current base when the low exponent bit
is set, square the base, and halve the exponent.  The `%` applications act on
non-negative operands throughout, where truncated and Euclidean remainder
agree. -/
def modPowGo (m : ℤ) (result base : ℤ) (exp : ℕ) : ℤ :=
  if h : exp = 0 then result
  else modPowGo m (if exp % 2 = 1 then (result * base) % m else result)
    ((base * base) % m) (exp / 2)
termination_by exp
decreasing_by exact Nat.div_lt_self (Nat.pos_of_ne_zero h) (by norm_num)

/-- Embedding of `modPow(base, exp, mod)`: the base is first normalized with
`((base % mod) + mod) % mod`, then the binary exponentiation loop runs. -/
def modPow (base : ℤ) (exp : ℕ) (m : ℤ) : ℤ :=
  modPowGo m 1 (jsMod base m) exp

theorem modPowGo_modEq (m : ℤ) (hm : 0 < m) :
    ∀ (exp : ℕ) (result base : ℤ), modPowGo m result base exp ≡ result * base ^ exp [ZMOD m] := by
  intro exp
  induction exp using Nat.strong_induction_on with
  | _ exp ih =>
    intro result base
    rw [modPowGo]
    split_ifs with h0 hodd
    · subst h0; simp
    · refine (ih (exp / 2) (Nat.div_lt_self (Nat.pos_of_ne_zero h0) (by norm_num)) _ _).trans ?_
      have hstep : (result * base) % m * ((base * base) % m) ^ (exp / 2)
          ≡ result * base * (base * base) ^ (exp / 2) [ZMOD m] :=
        Int.ModEq.mul (Int.emod_emod_of_dvd _ dvd_rfl)
          (Int.ModEq.pow _ (Int.emod_emod_of_dvd _ dvd_rfl))
      refine hstep.trans ?_
      have hcollect : result * base * (base * base) ^ (exp / 2)
          = result * base ^ (2 * (exp / 2) + 1) := by
        rw [show base * base = base ^ 2 from (sq base).symm, ← pow_mul]
        ring
      rw [hcollect, show 2 * (exp / 2) + 1 = exp by omega]
    · refine (ih (exp / 2) (Nat.div_lt_self (Nat.pos_of_ne_zero h0) (by norm_num)) _ _).trans ?_
      have hstep : result * ((base * base) % m) ^ (exp / 2)
          ≡ result * (base * base) ^ (exp / 2) [ZMOD m] :=
        (Int.ModEq.refl result).mul (Int.ModEq.pow _ (Int.emod_emod_of_dvd _ dvd_rfl))
      refine hstep.trans ?_
      have hcollect : result * (base * base) ^ (exp / 2) = result * base ^ (2 * (exp / 2)) := by
        rw [show base * base = base ^ 2 from (sq base).symm, ← pow_mul]
      rw [hcollect, show 2 * (exp / 2) = exp by omega]

theorem modPow_modEq (base : ℤ) (exp : ℕ) (m : ℤ) (hm : 0 < m) :
    modPow base exp m ≡ base ^ exp [ZMOD m] := by
  unfold modPow
  refine (modPowGo_modEq m hm exp 1 _).trans ?_
  rw [one_mul]
  exact (jsMod_modEq base m hm).pow exp

theorem modPowGo_zero_result (m : ℤ) : ∀ (exp : ℕ) (base : ℤ), modPowGo m 0 base exp = 0 := by
  intro exp
  induction exp using Nat.strong_induction_on with
  | _ exp ih =>
    intro base
    rw [modPowGo]
    split_ifs with h0 hodd
    · rfl
    · rw [zero_mul, Int.zero_emod]
      exact ih (exp / 2) (Nat.div_lt_self (Nat.pos_of_ne_zero h0) (by norm_num)) _
    · exact ih (exp / 2) (Nat.div_lt_self (Nat.pos_of_ne_zero h0) (by norm_num)) _

theorem modPowGo_zero_base (m : ℤ) :
    ∀ (exp : ℕ) (result : ℤ), 0 < exp → modPowGo m result 0 exp = 0 := by
  intro exp
  induction exp using Nat.strong_induction_on with
  | _ exp ih =>
    intro result hpos
    rw [modPowGo]
    split_ifs with h0 hodd
    · omega
    · rw [mul_zero, Int.zero_emod, mul_zero, Int.zero_emod]
      exact modPowGo_zero_result m (exp / 2) 0
    · rw [mul_zero, Int.zero_emod]
      exact ih (exp / 2) (Nat.div_lt_self (Nat.pos_of_ne_zero h0) (by norm_num)) result
        (by omega)

/-- Inverting zero: `modPow(0, P-2, P)` evaluates to `0`, not an error. -/
theorem modPow_zero_base (m : ℤ) (hm : 0 < m) (exp : ℕ) (hexp : 0 < exp) :
    modPow 0 exp m = 0 := by
  unfold modPow
  rw [show jsMod 0 m = 0 by rw [jsMod_eq_emod 0 m hm, Int.zero_emod]]
  exact modPowGo_zero_base m exp 1 hexp

/-- Embedding of the `ShareFile` record: `{share_index, threshold,
num_shares, coefficients}` with one `(x, y)` pair per ring position
(the `y` hex string is already parsed to an integer). -/
structure ShareFile where
  share_index : ℤ
  threshold : ℕ
  num_shares : ℤ
  coefficients : ℕ → ℤ × ℤ

/-- Embedding of `shamirReconstructField(shares, threshold)`: Lagrange
interpolation at `x = 0` over the BN254 scalar field.  Array reads beyond
the share list (`xs[i]`/`ys[i]` with `i ≥ shares.length`) yield `undefined`
in the source and make the subsequent bigint arithmetic throw; they are
embedded as `List.get?` reads in the `Option` monad, so any such read makes
the whole computation `none`. -/
def shamirReconstructField (shares : List (ℤ × ℤ)) (threshold : ℕ) : Option ℤ :=
  let xs := (shares.take threshold).map (fun sh => sh.1)
  let ys := (shares.take threshold).map (fun sh => sh.2)
  (List.range threshold).foldlM (fun secret i => do
      let yi ← ys.get? i
      let num ← (List.range threshold).foldlM (fun num j =>
          if i ≠ j then do
            let xj ← xs.get? j
            let xi ← xs.get? i
            pure (num * jsMod (-xj) BN254_P % BN254_P
              * modPow (jsMod (xi - xj) BN254_P) shamirExp BN254_P % BN254_P)
          else pure num) yi
      pure ((secret + num) % BN254_P)) 0

/-- Embedding of `reconstructSk(share1Data, share2Data)`: for each of the
`N` ring positions, interpolate the two share points with the threshold of
the first share file, convert the field element to a centered signed integer
and reduce it into `[0, Q)`.  The sequential loop with a possible failure at
each position is a monadic map over the position list. -/
def reconstructSk (share1Data share2Data : ShareFile) : Option (List ℤ) :=
  (List.range N).mapM (fun coeffIdx =>
    (shamirReconstructField
        [share1Data.coefficients coeffIdx, share2Data.coefficients coeffIdx]
        share1Data.threshold).map
      (fun val => jsMod (centeredMod val BN254_P) RLWE_Q))

theorem BN254_P_pos : (0 : ℤ) < BN254_P := by norm_num [BN254_P]

theorem mapM_option_some {α β : Type} (l : List α) (f : α → Option β) (g : α → β)
    (h : ∀ x ∈ l, f x = some (g x)) : l.mapM f = some (l.map g) := by
  induction l with
  | nil => rfl
  | cons x xs ih =>
    rw [List.mapM_cons, h x (by simp), ih (fun y hy => h y (by simp [hy]))]
    rfl

theorem mapM_option_mem {α β : Type} (l : List α) (f : α → Option β) (ys : List β)
    (h : l.mapM f = some ys) : ∀ y ∈ ys, ∃ x ∈ l, f x = some y := by
  induction l generalizing ys with
  | nil =>
    rw [List.mapM_nil] at h
    cases h
    intro y hy
    cases hy
  | cons x xs ih =>
    rw [List.mapM_cons] at h
    cases hfx : f x with
    | none => rw [hfx] at h; cases h
    | some b =>
      rw [hfx] at h
      cases hrest : xs.mapM f with
      | none => rw [hrest] at h; cases h
      | some bs =>
        rw [hrest] at h
        have hys : ys = b :: bs := by
          simpa using h.symm
        subst hys
        intro y hy
        rcases List.mem_cons.mp hy with hy | hy
        · exact ⟨x, by simp, hy ▸ hfx⟩
        · obtain ⟨x', hx', hfx'⟩ := ih bs hrest y hy
          exact ⟨x', by simp [hx'], hfx'⟩

theorem mapM_option_none {α β : Type} (l : List α) (f : α → Option β) (x : α)
    (hx : x ∈ l) (hf : f x = none) : l.mapM f = none := by
  induction l with
  | nil => cases hx
  | cons y ys ih =>
    rw [List.mapM_cons]
    rcases List.mem_cons.mp hx with h | h
    · subst h
      rw [hf]
      rfl
    · cases hfy : f y with
      | none => rfl
      | some b =>
        rw [ih h]
        rfl

theorem foldlM_option_none {α β : Type} (l : List α) (f : β → α → Option β) (x : α)
    (hx : x ∈ l) (hf : ∀ acc, f acc x = none) : ∀ acc, l.foldlM f acc = none := by
  induction l with
  | nil => cases hx
  | cons y ys ih =>
    intro acc
    rw [List.foldlM_cons]
    rcases List.mem_cons.mp hx with h | h
    · subst h
      rw [hf acc]
      rfl
    · cases hfy : f acc y with
      | none => rfl
      | some b =>
        show ys.foldlM f b = none
        exact ih h b

/-- Explicit evaluation of the two-share, threshold-2 interpolation. -/
theorem shamir2_eval (x1 y1 x2 y2 : ℤ) :
    shamirReconstructField [(x1, y1), (x2, y2)] 2
      = some (((0 + y1 * jsMod (-x2) BN254_P % BN254_P
            * modPow (jsMod (x1 - x2) BN254_P) shamirExp BN254_P % BN254_P) % BN254_P
          + y2 * jsMod (-x1) BN254_P % BN254_P
            * modPow (jsMod (x2 - x1) BN254_P) shamirExp BN254_P % BN254_P) % BN254_P) :=
  rfl

/-- Duplicate x-coordinates are not detected: because `modPow(0, P-2, P)`
evaluates to `0`, each interpolated value collapses to `0` and
`reconstructSk` returns the all-zero ring instead of failing. -/
theorem jsMod_zero (q : ℤ) (hq : 0 < q) : jsMod 0 q = 0 := by
  rw [jsMod_eq_emod 0 q hq, Int.zero_emod]

theorem centeredMod_zero (q : ℤ) (hq : 0 < q) : centeredMod 0 q = 0 := by
  unfold centeredMod
  rw [jsMod_zero q hq, if_neg (not_lt.mpr (Int.ediv_nonneg (le_of_lt hq) (by norm_num)))]

theorem reconstructSk_dup_zero (sh1 sh2 : ShareFile) (hthr : sh1.threshold = 2)
    (hdup : ∀ k < N, (sh1.coefficients k).1 = (sh2.coefficients k).1) :
    reconstructSk sh1 sh2 = some ((List.range N).map (fun _ => 0)) := by
  have hP := BN254_P_pos
  unfold reconstructSk
  rw [hthr]
  refine mapM_option_some _ _ (fun _ => 0) (fun k hk => ?_)
  have hkN : k < N := List.mem_range.mp hk
  have hd := hdup k hkN
  have he := shamir2_eval (sh1.coefficients k).1 (sh1.coefficients k).2
    (sh2.coefficients k).1 (sh2.coefficients k).2
  rw [Prod.mk.eta, Prod.mk.eta] at he
  have hz1 : jsMod ((sh1.coefficients k).1 - (sh2.coefficients k).1) BN254_P = 0 := by
    rw [hd, sub_self, jsMod_zero _ hP]
  have hz2 : jsMod ((sh2.coefficients k).1 - (sh1.coefficients k).1) BN254_P = 0 := by
    rw [← hd, sub_self, jsMod_zero _ hP]
  rw [hz1, hz2, modPow_zero_base BN254_P hP shamirExp shamirExp_pos] at he
  simp only [mul_zero, Int.zero_emod, add_zero, zero_add] at he
  rw [he]
  show some (jsMod (centeredMod 0 BN254_P) RLWE_Q) = some 0
  rw [centeredMod_zero BN254_P hP, jsMod_zero _ RLWE_Q_pos]

/-- Fewer shares than the threshold: the interpolation reads `ys[i]` past
the end of the share list and aborts. -/
theorem shamirReconstructField_insufficient (shares : List (ℤ × ℤ)) (threshold : ℕ)
    (h : shares.length < threshold) : shamirReconstructField shares threshold = none := by
  show (List.range threshold).foldlM (fun secret i => do
      let yi ← ((shares.take threshold).map (fun sh => sh.2)).get? i
      let num ← (List.range threshold).foldlM (fun num j =>
          if i ≠ j then do
            let xj ← ((shares.take threshold).map (fun sh => sh.1)).get? j
            let xi ← ((shares.take threshold).map (fun sh => sh.1)).get? i
            pure (num * jsMod (-xj) BN254_P % BN254_P
              * modPow (jsMod (xi - xj) BN254_P) shamirExp BN254_P % BN254_P)
          else pure num) yi
      pure ((secret + num) % BN254_P)) 0 = none
  refine foldlM_option_none _ _ shares.length (List.mem_range.mpr h) (fun acc => ?_) 0
  have hys : ((shares.take threshold).map (fun sh => sh.2)).get? shares.length = none := by
    rw [List.get?_eq_getElem?, List.getElem?_eq_none]
    rw [List.length_map, List.length_take]
    omega
  show (((shares.take threshold).map (fun sh => sh.2)).get? shares.length).bind _ = none
  rw [hys]
  rfl

/-- A threshold larger than the two supplied share files makes
`reconstructSk` abort on an out-of-range read (no specific error message). -/
theorem reconstructSk_insufficient (sh1 sh2 : ShareFile) (hthr : 2 < sh1.threshold) :
    reconstructSk sh1 sh2 = none := by
  unfold reconstructSk
  refine mapM_option_none _ _ 0 (List.mem_range.mpr (by norm_num [N])) ?_
  rw [Option.map_eq_none']
  exact shamirReconstructField_insufficient _ _ (by simpa using hthr)

/-!
### Primality of the BN254 scalar prime

The Shamir invariance claim relies on Fermat inversion modulo `BN254_P`,
which requires `BN254_P` to be prime.  We certify this with a recursive
Pratt/Lucas certificate, checked by a kernel-evaluable binary
modular-exponentiation function.
-/

/-- Kernel-friendly binary modular exponentiation on `ℕ`, with explicit
structural fuel. -/
def powModFuel : ℕ → ℕ → ℕ → ℕ → ℕ
  | 0, _, _, p => 1 % p
  | (fuel+1), a, e, p =>
      if e = 0 then 1 % p
      else
        let h := powModFuel fuel a (e / 2) p
        let h2 := h * h % p
        if e % 2 = 1 then h2 * a % p else h2

theorem powModFuel_correct : ∀ (fuel a e p : ℕ), e < 2 ^ fuel →
    powModFuel fuel a e p = a ^ e % p := by
  intro fuel
  induction fuel with
  | zero =>
    intro a e p h
    have he : e = 0 := by simpa using h
    subst he
    simp [powModFuel]
  | succ f ih =>
    intro a e p h
    by_cases he : e = 0
    · subst he; simp [powModFuel]
    · have h2f : 2 ^ (f + 1) = 2 * 2 ^ f := by rw [pow_succ]; ring
      have hrec := ih a (e / 2) p (by omega)
      simp only [powModFuel, if_neg he]
      rw [hrec]
      by_cases hodd : e % 2 = 1
      · rw [if_pos hodd]
        calc a ^ (e / 2) % p * (a ^ (e / 2) % p) % p * a % p
            = a ^ (e / 2) * a ^ (e / 2) % p * a % p := by rw [← Nat.mul_mod]
          _ = a ^ (e / 2) * a ^ (e / 2) * a % p := by rw [Nat.mod_mul_mod]
          _ = a ^ (e / 2 + e / 2 + 1) % p := by congr 1; ring
          _ = a ^ e % p := by rw [show e / 2 + e / 2 + 1 = e by omega]
      · rw [if_neg hodd, ← Nat.mul_mod, ← pow_add, show e / 2 + e / 2 = e by omega]

theorem zmod_pow_eq_one_of_powModFuel {p a e fuel : ℕ} (he : e < 2 ^ fuel)
    (hc : powModFuel fuel a e p = 1) : (a : ZMod p) ^ e = 1 := by
  have h := powModFuel_correct fuel a e p he
  calc ((a : ZMod p)) ^ e
      = ((a ^ e % p : ℕ) : ZMod p) := by rw [ZMod.natCast_mod]; push_cast; ring
    _ = ((1 : ℕ) : ZMod p) := by rw [← h, hc]
    _ = 1 := Nat.cast_one

theorem zmod_pow_ne_one_of_powModFuel {p a e fuel : ℕ} (hp : 1 < p) (he : e < 2 ^ fuel)
    (hc : powModFuel fuel a e p ≠ 1) : (a : ZMod p) ^ e ≠ 1 := by
  intro hcon
  apply hc
  rw [powModFuel_correct fuel a e p he]
  have h2 : ((a ^ e % p : ℕ) : ZMod p) = 1 := by
    rw [ZMod.natCast_mod]
    push_cast
    exact hcon
  have h3 : (((a ^ e % p : ℕ) : ZMod p)).val = a ^ e % p :=
    ZMod.val_cast_of_lt (Nat.mod_lt _ (by omega))
  rw [h2] at h3
  haveI : Fact (1 < p) := ⟨hp⟩
  rw [ZMod.val_one] at h3
  omega

theorem prime_dvd_factor_list (L : List (ℕ × ℕ)) (m : ℕ)
    (hprod : (L.map (fun pe => pe.1 ^ pe.2)).prod = m)
    (hL : ∀ pe ∈ L, Nat.Prime pe.1)
    (q : ℕ) (hq : q.Prime) (hdvd : q ∣ m) : ∃ pe ∈ L, pe.1 = q := by
  induction L generalizing m with
  | nil =>
    simp only [List.map_nil, List.prod_nil] at hprod
    subst hprod
    have := Nat.le_of_dvd one_pos hdvd
    exact absurd this (by have := hq.two_le; omega)
  | cons pe rest ih =>
    rw [List.map_cons, List.prod_cons] at hprod
    subst hprod
    rcases (Nat.Prime.dvd_mul hq).mp hdvd with h | h
    · have hq1 : q ∣ pe.1 := hq.dvd_of_dvd_pow h
      have heq := (Nat.prime_dvd_prime_iff_eq hq (hL pe (by simp))).mp hq1
      exact ⟨pe, by simp, heq.symm⟩
    · obtain ⟨pe', hpe', heq⟩ := ih _ rfl (fun x hx => hL x (by simp [hx])) h
      exact ⟨pe', by simp [hpe'], heq⟩

/-- Lucas/Pratt certificate checker: `a` has full order modulo `p`, witnessed
by kernel-checked modular exponentiations against a complete prime
factorization of `p - 1`. -/
theorem pratt_cert (p a : ℕ) (L : List (ℕ × ℕ)) (hp : 2 ≤ p)
    (hprod : (L.map (fun pe => pe.1 ^ pe.2)).prod = p - 1)
    (hL : ∀ pe ∈ L, Nat.Prime pe.1)
    (hsize : p - 1 < 2 ^ 300)
    (ha : powModFuel 300 a (p - 1) p = 1)
    (hq : ∀ pe ∈ L, powModFuel 300 a ((p - 1) / pe.1) p ≠ 1) : p.Prime := by
  refine lucas_primality p (a : ZMod p) ?_ ?_
  · exact zmod_pow_eq_one_of_powModFuel hsize ha
  · intro q hq' hdvd
    obtain ⟨pe, hpe, hpeq⟩ := prime_dvd_factor_list L (p - 1) hprod hL q hq' hdvd
    have hne := hq pe hpe
    have hlt : (p - 1) / pe.1 < 2 ^ 300 :=
      lt_of_le_of_lt (Nat.div_le_self _ _) hsize
    have := zmod_pow_ne_one_of_powModFuel (by omega) hlt hne
    rwa [hpeq] at this

set_option maxRecDepth 8000

theorem prime_12048837557 : Nat.Prime 12048837557 := by
  refine pratt_cert 12048837557 2 [(2, 2), (7, 2), (661, 1), (93001, 1)]
    (by norm_num) (by decide) ?_ (by decide) (by decide) ?_
  · intro pe hpe
    simp at hpe
    rcases hpe with rfl | rfl | rfl | rfl <;> norm_num
  · intro pe hpe
    simp at hpe
    rcases hpe with rfl | rfl | rfl | rfl <;> decide

theorem prime_5156902474397 : Nat.Prime 5156902474397 := by
  refine pratt_cert 5156902474397 2 [(2, 2), (107, 1), (12048837557, 1)]
    (by norm_num) (by decide) ?_ (by decide) (by decide) ?_
  · intro pe hpe
    simp at hpe
    rcases hpe with rfl | rfl | rfl
    · norm_num
    · norm_num
    · exact prime_12048837557
  · intro pe hpe
    simp at hpe
    rcases hpe with rfl | rfl | rfl <;> decide

theorem prime_1670836401704629 : Nat.Prime 1670836401704629 := by
  refine pratt_cert 1670836401704629 2 [(2, 2), (3, 4), (5156902474397, 1)]
    (by norm_num) (by decide) ?_ (by decide) (by decide) ?_
  · intro pe hpe
    simp at hpe
    rcases hpe with rfl | rfl | rfl
    · norm_num
    · norm_num
    · exact prime_5156902474397
  · intro pe hpe
    simp at hpe
    rcases hpe with rfl | rfl | rfl <;> decide

theorem prime_405928799 : Nat.Prime 405928799 := by
  refine pratt_cert 405928799 22 [(2, 1), (11, 1), (3691, 1), (4999, 1)]
    (by norm_num) (by decide) ?_ (by decide) (by decide) ?_
  · intro pe hpe
    simp at hpe
    rcases hpe with rfl | rfl | rfl | rfl <;> norm_num
  · intro pe hpe
    simp at hpe
    rcases hpe with rfl | rfl | rfl | rfl <;> decide

theorem prime_639533339 : Nat.Prime 639533339 := by
  refine pratt_cert 639533339 2 [(2, 1), (229, 1), (853, 1), (1637, 1)]
    (by norm_num) (by decide) ?_ (by decide) (by decide) ?_
  · intro pe hpe
    simp at hpe
    rcases hpe with rfl | rfl | rfl | rfl <;> norm_num
  · intro pe hpe
    simp at hpe
    rcases hpe with rfl | rfl | rfl | rfl <;> decide

theorem prime_65865678001877903 : Nat.Prime 65865678001877903 := by
  refine pratt_cert 65865678001877903 5 [(2, 1), (83, 1), (379, 1), (1637, 1), (639533339, 1)]
    (by norm_num) (by decide) ?_ (by decide) (by decide) ?_
  · intro pe hpe
    simp at hpe
    rcases hpe with rfl | rfl | rfl | rfl | rfl
    · norm_num
    · norm_num
    · norm_num
    · norm_num
    · exact prime_639533339
  · intro pe hpe
    simp at hpe
    rcases hpe with rfl | rfl | rfl | rfl | rfl <;> decide

theorem prime_13818364434197438864469338081 : Nat.Prime 13818364434197438864469338081 := by
  refine pratt_cert 13818364434197438864469338081 3
    [(2, 5), (5, 1), (823, 1), (1593227, 1), (65865678001877903, 1)]
    (by norm_num) (by decide) ?_ (by decide) (by decide) ?_
  · intro pe hpe
    simp at hpe
    rcases hpe with rfl | rfl | rfl | rfl | rfl
    · norm_num
    · norm_num
    · norm_num
    · norm_num
    · exact prime_65865678001877903
  · intro pe hpe
    simp at hpe
    rcases hpe with rfl | rfl | rfl | rfl | rfl <;> decide

/-- The BN254 scalar-field modulus is prime. -/
theorem bn254_prime :
    Nat.Prime 21888242871839275222246405745257275088548364400416034343698204186575808495617 := by
  refine pratt_cert
    21888242871839275222246405745257275088548364400416034343698204186575808495617 5
    [(2, 28), (3, 2), (13, 1), (29, 1), (983, 1), (11003, 1), (237073, 1),
      (405928799, 1), (1670836401704629, 1), (13818364434197438864469338081, 1)]
    (by norm_num) (by decide) ?_ (by decide) (by decide) ?_
  · intro pe hpe
    simp at hpe
    rcases hpe with rfl | rfl | rfl | rfl | rfl | rfl | rfl | rfl | rfl | rfl
    · norm_num
    · norm_num
    · norm_num
    · norm_num
    · norm_num
    · norm_num
    · norm_num
    · exact prime_405928799
    · exact prime_1670836401704629
    · exact prime_13818364434197438864469338081
  · intro pe hpe
    simp at hpe
    rcases hpe with rfl | rfl | rfl | rfl | rfl | rfl | rfl | rfl | rfl | rfl <;> decide

theorem BN254_P_cast : BN254_P =
    ((21888242871839275222246405745257275088548364400416034343698204186575808495617 : ℕ) : ℤ) := by
  norm_num [BN254_P]

/-- Correctness of the two-share Lagrange interpolation at `x = 0`: if both
share points lie on the line `y = a0 + a1*x` over the BN254 field and their
x-coordinates are distinct mod `P`, the reconstruction returns the constant
term `a0` (normalized into `[0, P)`). -/
theorem lagrange2 (x1 y1 x2 y2 a0 a1 : ℤ)
    (h1 : y1 ≡ a0 + a1 * x1 [ZMOD BN254_P])
    (h2 : y2 ≡ a0 + a1 * x2 [ZMOD BN254_P])
    (hx : ¬ (x1 ≡ x2 [ZMOD BN254_P])) :
    shamirReconstructField [(x1, y1), (x2, y2)] 2 = some (a0 % BN254_P) := by
  have hP := BN254_P_pos
  have hE : shamirExp % 2 = 1 := by norm_num [shamirExp]
  have hprime_int : Prime (BN254_P) := by
    rw [BN254_P_cast]
    exact Nat.prime_iff_prime_int.mp bn254_prime
  have hnd : ¬ (BN254_P ∣ (x1 - x2)) := by
    intro hcontra
    apply hx
    rw [Int.modEq_iff_dvd]
    rw [show x2 - x1 = -(x1 - x2) by ring]
    exact dvd_neg.mpr hcontra
  have hcop : IsCoprime (x1 - x2)
      ((21888242871839275222246405745257275088548364400416034343698204186575808495617 : ℕ) : ℤ) := by
    rw [← BN254_P_cast]
    exact ((Prime.coprime_iff_not_dvd hprime_int).mpr hnd).symm
  have hfermat : (x1 - x2) * (x1 - x2) ^ shamirExp ≡ 1 [ZMOD BN254_P] := by
    rw [show (x1 - x2) * (x1 - x2) ^ shamirExp = (x1 - x2) ^ (shamirExp + 1) from by
      rw [pow_succ]; ring]
    have hnat : shamirExp + 1 =
        21888242871839275222246405745257275088548364400416034343698204186575808495617 - 1 := by
      norm_num [shamirExp]
    rw [hnat, BN254_P_cast]
    exact Int.ModEq.pow_card_sub_one_eq_one bn254_prime hcop
  rw [shamir2_eval]
  congr 1
  have hI12 : modPow (jsMod (x1 - x2) BN254_P) shamirExp BN254_P
      ≡ (x1 - x2) ^ shamirExp [ZMOD BN254_P] :=
    (modPow_modEq _ _ _ hP).trans (Int.ModEq.pow _ (jsMod_modEq _ _ hP))
  have hI21 : modPow (jsMod (x2 - x1) BN254_P) shamirExp BN254_P
      ≡ -((x1 - x2) ^ shamirExp) [ZMOD BN254_P] := by
    refine ((modPow_modEq _ _ _ hP).trans (Int.ModEq.pow _ (jsMod_modEq _ _ hP))).trans ?_
    rw [show x2 - x1 = -(x1 - x2) by ring, Odd.neg_pow (Nat.odd_iff.mpr hE)]
  have hT1 : y1 * jsMod (-x2) BN254_P % BN254_P
        * modPow (jsMod (x1 - x2) BN254_P) shamirExp BN254_P % BN254_P
      ≡ y1 * (-x2) * (x1 - x2) ^ shamirExp [ZMOD BN254_P] := by
    refine (Int.emod_emod_of_dvd _ dvd_rfl).trans ?_
    refine Int.ModEq.mul ?_ hI12
    refine (Int.emod_emod_of_dvd _ dvd_rfl).trans ?_
    exact (Int.ModEq.refl y1).mul (jsMod_modEq _ _ hP)
  have hT2 : y2 * jsMod (-x1) BN254_P % BN254_P
        * modPow (jsMod (x2 - x1) BN254_P) shamirExp BN254_P % BN254_P
      ≡ y2 * (-x1) * (-((x1 - x2) ^ shamirExp)) [ZMOD BN254_P] := by
    refine (Int.emod_emod_of_dvd _ dvd_rfl).trans ?_
    refine Int.ModEq.mul ?_ hI21
    refine (Int.emod_emod_of_dvd _ dvd_rfl).trans ?_
    exact (Int.ModEq.refl y2).mul (jsMod_modEq _ _ hP)
  show _ % BN254_P = a0 % BN254_P
  have hX : (0 + y1 * jsMod (-x2) BN254_P % BN254_P
        * modPow (jsMod (x1 - x2) BN254_P) shamirExp BN254_P % BN254_P) % BN254_P
        + y2 * jsMod (-x1) BN254_P % BN254_P
        * modPow (jsMod (x2 - x1) BN254_P) shamirExp BN254_P % BN254_P
      ≡ y1 * (-x2) * (x1 - x2) ^ shamirExp
        + y2 * (-x1) * (-((x1 - x2) ^ shamirExp)) [ZMOD BN254_P] := by
    refine Int.ModEq.add ?_ hT2
    refine (Int.emod_emod_of_dvd _ dvd_rfl).trans ?_
    rw [zero_add]
    exact hT1
  refine hX.trans ?_
  have hsub : y1 * (-x2) * (x1 - x2) ^ shamirExp + y2 * (-x1) * (-((x1 - x2) ^ shamirExp))
      ≡ (a0 + a1 * x1) * (-x2) * (x1 - x2) ^ shamirExp
        + (a0 + a1 * x2) * (-x1) * (-((x1 - x2) ^ shamirExp)) [ZMOD BN254_P] :=
    Int.ModEq.add ((h1.mul (Int.ModEq.refl _)).mul (Int.ModEq.refl _))
      ((h2.mul (Int.ModEq.refl _)).mul (Int.ModEq.refl _))
  refine hsub.trans ?_
  have hpoly : (a0 + a1 * x1) * (-x2) * (x1 - x2) ^ shamirExp
        + (a0 + a1 * x2) * (-x1) * (-((x1 - x2) ^ shamirExp))
      = a0 * ((x1 - x2) * (x1 - x2) ^ shamirExp) := by ring
  rw [hpoly]
  refine ((Int.ModEq.refl a0).mul hfermat).trans ?_
  rw [mul_one]

/-- Concrete degenerate share file (all positions at `x = 1`). -/
def cexShare1 : ShareFile := ⟨1, 2, 2, fun _ => (1, 5)⟩

/-- Second concrete share file with the same x-coordinates as `cexShare1`. -/
def cexShare2 : ShareFile := ⟨2, 2, 2, fun _ => (1, 7)⟩

/-- C5 (amended): `reconstructSk` performs no share-set validation.  With a
degenerate share set (duplicate x-coordinates at every position, threshold
2) it silently returns the all-zero ring, because the modular inverse of
zero is computed as zero; with a threshold exceeding the two supplied
shares it aborts on an out-of-range array read, not with a specific
`insufficient shares` error. -/
theorem C5_share_errors_amended (sh1 sh2 : ShareFile) :
    (sh1.threshold = 2 →
      (∀ k < N, (sh1.coefficients k).1 = (sh2.coefficients k).1) →
      reconstructSk sh1 sh2 = some ((List.range N).map (fun _ => 0)))
    ∧ (2 < sh1.threshold → reconstructSk sh1 sh2 = none) :=
  ⟨fun h1 h2 => reconstructSk_dup_zero sh1 sh2 h1 h2,
   fun h => reconstructSk_insufficient sh1 sh2 h⟩

/-- Witness for the amended C5 at the concrete degenerate share pair. -/
theorem C5_share_errors_amended_witness :
    (cexShare1.threshold = 2
      ∧ (∀ k < N, (cexShare1.coefficients k).1 = (cexShare2.coefficients k).1))
    ∧ reconstructSk cexShare1 cexShare2 = some ((List.range N).map (fun _ => 0)) :=
  ⟨⟨rfl, fun _ _ => rfl⟩,
    (C5_share_errors_amended cexShare1 cexShare2).1 rfl (fun _ _ => rfl)⟩

/-- Counterexample to C5 as stated: two supplied shares with equal
x-coordinates at every ring position do not produce a fatal `degenerate
share set` error; `reconstructSk` returns a reconstructed ring (all
zeros). -/
theorem C5_counterexample :
    cexShare1.threshold = 2
    ∧ (∀ k < N, (cexShare1.coefficients k).1 = (cexShare2.coefficients k).1)
    ∧ reconstructSk cexShare1 cexShare2 = some ((List.range N).map (fun _ => 0)) :=
  ⟨rfl, fun _ _ => rfl,
    reconstructSk_dup_zero cexShare1 cexShare2 rfl (fun _ _ => rfl)⟩

/-- C6: for a 2-of-n Shamir sharing in which, at every ring position, all
shares are points on the same degree-1 polynomial over the BN254 scalar
field, `reconstructSk` applied to any two shares with distinct
x-coordinates yields the same ring of 1024 coefficients, independent of
which two shares are chosen (and that ring is determined by the constant
terms `a0`). -/
theorem C6_threshold_invariance (sh1 sh2 sh3 sh4 : ShareFile) (a0 a1 : ℕ → ℤ)
    (ht1 : sh1.threshold = 2) (ht3 : sh3.threshold = 2)
    (hline : ∀ sh ∈ [sh1, sh2, sh3, sh4], ∀ k < N,
      (sh.coefficients k).2 ≡ a0 k + a1 k * (sh.coefficients k).1 [ZMOD BN254_P])
    (hd12 : ∀ k < N, ¬ ((sh1.coefficients k).1 ≡ (sh2.coefficients k).1 [ZMOD BN254_P]))
    (hd34 : ∀ k < N, ¬ ((sh3.coefficients k).1 ≡ (sh4.coefficients k).1 [ZMOD BN254_P])) :
    reconstructSk sh1 sh2 = reconstructSk sh3 sh4
    ∧ reconstructSk sh1 sh2 = some ((List.range N).map
        (fun k => jsMod (centeredMod (a0 k % BN254_P) BN254_P) RLWE_Q)) := by
  have key : ∀ (u v : ShareFile), u.threshold = 2 →
      (∀ k < N, (u.coefficients k).2 ≡ a0 k + a1 k * (u.coefficients k).1 [ZMOD BN254_P]) →
      (∀ k < N, (v.coefficients k).2 ≡ a0 k + a1 k * (v.coefficients k).1 [ZMOD BN254_P]) →
      (∀ k < N, ¬ ((u.coefficients k).1 ≡ (v.coefficients k).1 [ZMOD BN254_P])) →
      reconstructSk u v = some ((List.range N).map
        (fun k => jsMod (centeredMod (a0 k % BN254_P) BN254_P) RLWE_Q)) := by
    intro u v hthr hu hv hd
    unfold reconstructSk
    rw [hthr]
    refine mapM_option_some _ _ _ (fun k hk => ?_)
    have hkN : k < N := List.mem_range.mp hk
    have hsh := lagrange2 (u.coefficients k).1 (u.coefficients k).2
      (v.coefficients k).1 (v.coefficients k).2 (a0 k) (a1 k)
      (hu k hkN) (hv k hkN) (hd k hkN)
    rw [Prod.mk.eta, Prod.mk.eta] at hsh
    rw [hsh]
    rfl
  have h12 := key sh1 sh2 ht1 (hline sh1 (by simp)) (hline sh2 (by simp)) hd12
  have h34 := key sh3 sh4 ht3 (hline sh3 (by simp)) (hline sh4 (by simp)) hd34
  exact ⟨h12.trans h34.symm, h12⟩

/-- Concrete share files on the zero polynomial, one per x-coordinate. -/
def c6Share (x : ℤ) : ShareFile := ⟨x, 2, 4, fun _ => (x, 0)⟩

/-- Witness for C6 at four concrete shares of the zero line. -/
theorem C6_threshold_invariance_witness :
    ((c6Share 1).threshold = 2 ∧ (c6Share 3).threshold = 2
      ∧ (∀ k < N, ¬ (((c6Share 1).coefficients k).1
          ≡ ((c6Share 2).coefficients k).1 [ZMOD BN254_P]))
      ∧ (∀ k < N, ¬ (((c6Share 3).coefficients k).1
          ≡ ((c6Share 4).coefficients k).1 [ZMOD BN254_P])))
    ∧ (reconstructSk (c6Share 1) (c6Share 2) = reconstructSk (c6Share 3) (c6Share 4)
      ∧ reconstructSk (c6Share 1) (c6Share 2) = some ((List.range N).map
          (fun k => jsMod (centeredMod ((0:ℤ) % BN254_P) BN254_P) RLWE_Q))) := by
  have hline : ∀ sh ∈ [c6Share 1, c6Share 2, c6Share 3, c6Share 4], ∀ k < N,
      (sh.coefficients k).2 ≡ (0:ℤ) + 0 * (sh.coefficients k).1 [ZMOD BN254_P] := by
    intro sh hsh k _
    have hy : (sh.coefficients k).2 = 0 := by
      fin_cases hsh <;> rfl
    rw [hy, zero_mul, add_zero]
  have hd12 : ∀ k < N, ¬ (((c6Share 1).coefficients k).1
      ≡ ((c6Share 2).coefficients k).1 [ZMOD BN254_P]) := fun _ _ => by
    show ¬ ((1:ℤ) ≡ 2 [ZMOD BN254_P])
    decide
  have hd34 : ∀ k < N, ¬ (((c6Share 3).coefficients k).1
      ≡ ((c6Share 4).coefficients k).1 [ZMOD BN254_P]) := fun _ _ => by
    show ¬ ((3:ℤ) ≡ 4 [ZMOD BN254_P])
    decide
  exact ⟨⟨rfl, rfl, hd12, hd34⟩,
    C6_threshold_invariance (c6Share 1) (c6Share 2) (c6Share 3) (c6Share 4)
      (fun _ => 0) (fun _ => 0) rfl rfl hline hd12 hd34⟩

/-!
### Merkle accumulator (`ShieldedPoolMerkleTree`)

The Poseidon hash is an external primitive; the tree is embedded relative to
an arbitrary combine function `H : ℤ → ℤ → ℤ`.  The leaf list plays the
role of the `leaves` array (insertion is list append; `insert` returns the
pre-insert length, i.e. the index of the appended leaf).
-/

/-- Tree depth `TREE_DEPTH = 16`. -/
def TREE_DEPTH : ℕ := 16

/-- Embedding of the `defaultHashes` ladder built in the constructor:
`defaultHashes[0] = 0`, `defaultHashes[i+1] = H(d_i, d_i)`. -/
def defaultHashes (H : ℤ → ℤ → ℤ) : ℕ → ℤ
  | 0 => 0
  | i + 1 => H (defaultHashes H i) (defaultHashes H i)

/-- One level step of `getRoot`/`getProof`: pair up `width` sibling pairs,
reading missing entries as the current level's default hash `d`. -/
def levelStep (H : ℤ → ℤ → ℤ) (d : ℤ) (cl : List ℤ) (width : ℕ) : List ℤ :=
  (List.range width).map (fun t => H (cl.getD (2 * t) d) (cl.getD (2 * t + 1) d))

/-- The current level after `i` combining steps of `getRoot`: level `0` is
the leaf array, and level `i+1` pairs level `i` with width
`2^(TREE_DEPTH - i) / 2 = 2^(TREE_DEPTH - i - 1)` (the source loop runs `j`
over `[0, 2^(TREE_DEPTH - i))` in steps of two). -/
def levelList (H : ℤ → ℤ → ℤ) (leaves : List ℤ) : ℕ → List ℤ
  | 0 => leaves
  | i + 1 => levelStep H (defaultHashes H i) (levelList H leaves i) (2 ^ (TREE_DEPTH - i - 1))

/-- Embedding of `getRoot()`: after `TREE_DEPTH` combining steps the current
level holds the single root entry. -/
def getRoot (H : ℤ → ℤ → ℤ) (leaves : List ℤ) : ℤ :=
  (levelList H leaves TREE_DEPTH).getD 0 0

/-- Embedding of `calculateRootAtLevel(level, index)`: level 0 reads
`leaves[index] ?? 0`, level `l+1` combines the two children. -/
def calculateRootAtLevel (H : ℤ → ℤ → ℤ) (leaves : List ℤ) : ℕ → ℕ → ℤ
  | 0, index => leaves.getD index 0
  | l + 1, index =>
      H (calculateRootAtLevel H leaves l (2 * index))
        (calculateRootAtLevel H leaves l (2 * index + 1))

/-- Embedding of `getRootOptimized()`. -/
def getRootOptimized (H : ℤ → ℤ → ℤ) (leaves : List ℤ) : ℤ :=
  calculateRootAtLevel H leaves TREE_DEPTH 0

/-- Embedding of the loop body of `getProof(index)`: at each level record
the sibling (`currentIdx - 1` when the index is odd, `currentIdx + 1`
otherwise, with default-hash substitution), then move up one level and halve
the index.  `currentLevel` at iteration `lvl` equals `levelList lvl` and
`currentIdx` equals `index / 2^lvl`. -/
def getProofAux (H : ℤ → ℤ → ℤ) (leaves : List ℤ) : ℕ → ℕ → ℕ → List ℤ
  | _, 0, _ => []
  | lvl, steps + 1, idx =>
      (levelList H leaves lvl).getD (if idx % 2 = 1 then idx - 1 else idx + 1)
        (defaultHashes H lvl)
        :: getProofAux H leaves (lvl + 1) steps (idx / 2)

/-- Embedding of `getProof(index)`. -/
def getProof (H : ℤ → ℤ → ℤ) (leaves : List ℤ) (index : ℕ) : List ℤ :=
  getProofAux H leaves 0 TREE_DEPTH index

/-- Recombination of a Merkle path with a leaf, ordering left/right by the
bits of the index (the claim's verification fold). -/
def foldPath (H : ℤ → ℤ → ℤ) : List ℤ → ℕ → ℤ → ℤ
  | [], _, v => v
  | sib :: rest, idx, v =>
      foldPath H rest (idx / 2) (if idx % 2 = 1 then H sib v else H v sib)

theorem getD_map_range {α : Type} (f : ℕ → α) (w j : ℕ) (d : α) :
    ((List.range w).map f).getD j d = if j < w then f j else d := by
  rw [List.getD_eq_getElem?_getD, List.getElem?_map]
  split_ifs with h
  · rw [List.getElem?_range h]
    rfl
  · rw [List.getElem?_eq_none (by simpa using not_lt.mp h)]
    rfl

theorem levelList_length (H : ℤ → ℤ → ℤ) (leaves : List ℤ) (i : ℕ) (hi : 0 < i) :
    (levelList H leaves i).length = 2 ^ (TREE_DEPTH - i) := by
  obtain ⟨j, rfl⟩ : ∃ j, i = j + 1 := ⟨i - 1, by omega⟩
  show (levelStep H _ _ _).length = _
  unfold levelStep
  rw [List.length_map, List.length_range,
    show TREE_DEPTH - j - 1 = TREE_DEPTH - (j + 1) by omega]

/-- The iterative levels of `getRoot` agree with the recursive evaluation of
`getRootOptimized` at every in-range position. -/
theorem levelList_eq_calc (H : ℤ → ℤ → ℤ) (leaves : List ℤ) :
    ∀ i, i ≤ TREE_DEPTH → ∀ j, j < 2 ^ (TREE_DEPTH - i) →
      (levelList H leaves i).getD j (defaultHashes H i) = calculateRootAtLevel H leaves i j := by
  intro i
  induction i with
  | zero =>
    intro _ j _
    rfl
  | succ l ih =>
    intro hi j hj
    show (levelStep H (defaultHashes H l) (levelList H leaves l)
        (2 ^ (TREE_DEPTH - l - 1))).getD j (defaultHashes H (l + 1))
      = calculateRootAtLevel H leaves (l + 1) j
    unfold levelStep
    have hw : j < 2 ^ (TREE_DEPTH - l - 1) := by
      rw [show TREE_DEPTH - l - 1 = TREE_DEPTH - (l + 1) by omega]
      exact hj
    have hsplit : TREE_DEPTH - l = (TREE_DEPTH - (l + 1)) + 1 := by
      unfold TREE_DEPTH at *
      omega
    rw [getD_map_range, if_pos hw,
      ih (by omega) (2 * j) (by rw [hsplit, pow_succ]; omega),
      ih (by omega) (2 * j + 1) (by rw [hsplit, pow_succ]; omega)]
    rfl

theorem levelList_top_length (H : ℤ → ℤ → ℤ) (leaves : List ℤ) :
    (levelList H leaves TREE_DEPTH).length = 1 := by
  rw [levelList_length H leaves TREE_DEPTH (by norm_num [TREE_DEPTH])]
  simp

/-- C4: for every leaf configuration of the depth-16 tree (at most `2^16`
inserted commitments) and every combine function, `getRoot()` and
`getRootOptimized()` return the same value. -/
theorem C4_root_equivalence (H : ℤ → ℤ → ℤ) (leaves : List ℤ)
    (hlen : leaves.length ≤ 2 ^ TREE_DEPTH) :
    getRoot H leaves = getRootOptimized H leaves := by
  have h := levelList_eq_calc H leaves TREE_DEPTH (le_refl _) 0 (by simp)
  have hlength := levelList_top_length H leaves
  unfold getRoot getRootOptimized
  rw [← h, List.getD_eq_getElem _ 0 (by omega), List.getD_eq_getElem _ _ (by omega)]

/-- Witness for C4 at a two-leaf tree with an explicit combine function. -/
theorem C4_root_equivalence_witness :
    ([5, 7] : List ℤ).length ≤ 2 ^ TREE_DEPTH
    ∧ getRoot (fun a b => a + 2 * b) [5, 7] = getRootOptimized (fun a b => a + 2 * b) [5, 7] :=
  ⟨by norm_num [TREE_DEPTH],
    C4_root_equivalence (fun a b => a + 2 * b) [5, 7] (by norm_num [TREE_DEPTH])⟩

theorem getProofAux_length (H : ℤ → ℤ → ℤ) (leaves : List ℤ) :
    ∀ steps lvl idx, (getProofAux H leaves lvl steps idx).length = steps := by
  intro steps
  induction steps with
  | zero => intro _ _; rfl
  | succ st ih =>
    intro lvl idx
    show (_ :: getProofAux H leaves (lvl + 1) st (idx / 2)).length = st + 1
    rw [List.length_cons, ih]

/-- Folding the recorded siblings from level `lvl` upward reproduces the
entry of the top level above the starting position. -/
theorem foldPath_getProofAux (H : ℤ → ℤ → ℤ) (leaves : List ℤ) :
    ∀ steps lvl idx, lvl + steps ≤ TREE_DEPTH → idx < 2 ^ (TREE_DEPTH - lvl) →
      foldPath H (getProofAux H leaves lvl steps idx) idx
        ((levelList H leaves lvl).getD idx (defaultHashes H lvl))
      = (levelList H leaves (lvl + steps)).getD (idx / 2 ^ steps)
          (defaultHashes H (lvl + steps)) := by
  intro steps
  induction steps with
  | zero =>
    intro lvl idx _ _
    show (levelList H leaves lvl).getD idx (defaultHashes H lvl)
      = (levelList H leaves (lvl + 0)).getD (idx / 2 ^ 0) (defaultHashes H (lvl + 0))
    rw [Nat.add_zero, pow_zero, Nat.div_one]
  | succ st ih =>
    intro lvl idx hle hidx
    have hlvl : lvl < TREE_DEPTH := by omega
    have hsplit : TREE_DEPTH - lvl = (TREE_DEPTH - lvl - 1) + 1 := by omega
    show foldPath H (getProofAux H leaves (lvl + 1) st (idx / 2)) (idx / 2)
        (if idx % 2 = 1
          then H ((levelList H leaves lvl).getD (if idx % 2 = 1 then idx - 1 else idx + 1)
              (defaultHashes H lvl)) ((levelList H leaves lvl).getD idx (defaultHashes H lvl))
          else H ((levelList H leaves lvl).getD idx (defaultHashes H lvl))
              ((levelList H leaves lvl).getD (if idx % 2 = 1 then idx - 1 else idx + 1)
              (defaultHashes H lvl)))
      = (levelList H leaves (lvl + (st + 1))).getD (idx / 2 ^ (st + 1))
          (defaultHashes H (lvl + (st + 1)))
    have hv : (if idx % 2 = 1
          then H ((levelList H leaves lvl).getD (if idx % 2 = 1 then idx - 1 else idx + 1)
              (defaultHashes H lvl)) ((levelList H leaves lvl).getD idx (defaultHashes H lvl))
          else H ((levelList H leaves lvl).getD idx (defaultHashes H lvl))
              ((levelList H leaves lvl).getD (if idx % 2 = 1 then idx - 1 else idx + 1)
              (defaultHashes H lvl)))
        = (levelList H leaves (lvl + 1)).getD (idx / 2) (defaultHashes H (lvl + 1)) := by
      show _ = (levelStep H (defaultHashes H lvl) (levelList H leaves lvl)
          (2 ^ (TREE_DEPTH - lvl - 1))).getD (idx / 2) (defaultHashes H (lvl + 1))
      unfold levelStep
      have hw : idx / 2 < 2 ^ (TREE_DEPTH - lvl - 1) := by
        rw [hsplit, pow_succ] at hidx
        omega
      rw [getD_map_range, if_pos hw]
      by_cases hodd : idx % 2 = 1
      · rw [if_pos hodd, if_pos hodd,
          show 2 * (idx / 2) + 1 = idx by omega,
          show 2 * (idx / 2) = idx - 1 by omega]
      · rw [if_neg hodd, if_neg hodd, show 2 * (idx / 2) = idx by omega]
    rw [hv]
    have hidx2 : idx / 2 < 2 ^ (TREE_DEPTH - (lvl + 1)) := by
      rw [show TREE_DEPTH - (lvl + 1) = TREE_DEPTH - lvl - 1 by omega]
      rw [hsplit, pow_succ] at hidx
      omega
    have := ih (lvl + 1) (idx / 2) (by omega) hidx2
    rw [this, show lvl + 1 + st = lvl + (st + 1) by omega,
      Nat.div_div_eq_div_mul, show 2 * 2 ^ st = 2 ^ (st + 1) from by rw [pow_succ]; ring]

/-- C7: for every tree state with at most `2^16` leaves and every leaf index
`j` below the leaf count, `getProof(j)` returns exactly 16 siblings, and
folding the leaf value upward through the 16 levels (ordering left/right by
the bits of `j`, with default-hash substitution for missing siblings)
reproduces `getRoot()`. -/
theorem C7_proof_recombination (H : ℤ → ℤ → ℤ) (leaves : List ℤ) (j : ℕ)
    (hlen : leaves.length ≤ 2 ^ TREE_DEPTH) (hj : j < leaves.length) :
    (getProof H leaves j).length = TREE_DEPTH
    ∧ foldPath H (getProof H leaves j) j (leaves.getD j 0) = getRoot H leaves := by
  refine ⟨getProofAux_length H leaves TREE_DEPTH 0 j, ?_⟩
  have hmain := foldPath_getProofAux H leaves TREE_DEPTH 0 j (by omega)
    (lt_of_lt_of_le hj hlen)
  simp only [Nat.zero_add] at hmain
  have hj0 : j / 2 ^ TREE_DEPTH = 0 := Nat.div_eq_of_lt (lt_of_lt_of_le hj hlen)
  rw [hj0] at hmain
  have hlength := levelList_top_length H leaves
  unfold getProof getRoot
  have h1 : 0 < (levelList H leaves TREE_DEPTH).length := by omega
  have hd : (levelList H leaves TREE_DEPTH).getD 0 (0 : ℤ)
      = (levelList H leaves TREE_DEPTH).getD 0 (defaultHashes H TREE_DEPTH) := by
    rw [List.getD_eq_getElem _ _ h1, List.getD_eq_getElem _ _ h1]
  rw [hd]
  exact hmain

/-- C9: every ring element the core produces is normalized into `[0, Q)`:
each coefficient of `negacyclicMulModQ`, each entry of `c0Sparse` (the first
64 slots) and `c1` returned by `rlweEncrypt`, and each coefficient of a
successfully reconstructed secret ring from `reconstructSk`. -/
theorem C9_coefficient_normalization :
    (∀ (a b : ℕ → ℤ) (n k : ℕ),
      0 ≤ negacyclicMulModQ a b n RLWE_Q k ∧ negacyclicMulModQ a b n RLWE_Q k < RLWE_Q)
    ∧ (∀ (b rS e1S msg : ℕ → ℤ) (i : ℕ), i < MSG_SLOTS →
      0 ≤ rlweEncryptC0 b rS e1S msg i ∧ rlweEncryptC0 b rS e1S msg i < RLWE_Q)
    ∧ (∀ (a rS e2S : ℕ → ℤ) (i : ℕ), i < N →
      0 ≤ rlweEncryptC1 a rS e2S i ∧ rlweEncryptC1 a rS e2S i < RLWE_Q)
    ∧ (∀ (s1 s2 : ShareFile) (sk : List ℤ), reconstructSk s1 s2 = some sk →
      ∀ y ∈ sk, 0 ≤ y ∧ y < RLWE_Q) := by
  refine ⟨?_, ?_, ?_, ?_⟩
  · intro a b n k
    exact ⟨negacyclicMulModQ_nonneg a b n RLWE_Q_pos k,
      negacyclicMulModQ_lt a b n RLWE_Q_pos k⟩
  · intro b rS e1S msg i _
    exact ⟨jsMod_nonneg _ _ RLWE_Q_pos, jsMod_lt _ _ RLWE_Q_pos⟩
  · intro a rS e2S i _
    exact ⟨jsMod_nonneg _ _ RLWE_Q_pos, jsMod_lt _ _ RLWE_Q_pos⟩
  · intro s1 s2 sk hsk y hy
    obtain ⟨x, _, hfx⟩ := mapM_option_mem _ _ sk hsk y hy
    cases hval : shamirReconstructField
        [s1.coefficients x, s2.coefficients x] s1.threshold with
    | none =>
      rw [show (shamirReconstructField
          [s1.coefficients x, s2.coefficients x] s1.threshold).map
            (fun val => jsMod (centeredMod val BN254_P) RLWE_Q)
          = Option.map (fun val => jsMod (centeredMod val BN254_P) RLWE_Q) none
        from by rw [hval]] at hfx
      simp at hfx
    | some v =>
      rw [show (shamirReconstructField
          [s1.coefficients x, s2.coefficients x] s1.threshold).map
            (fun val => jsMod (centeredMod val BN254_P) RLWE_Q)
          = Option.map (fun val => jsMod (centeredMod val BN254_P) RLWE_Q) (some v)
        from by rw [hval]] at hfx
      simp at hfx
      rw [← hfx]
      exact ⟨jsMod_nonneg _ _ RLWE_Q_pos, jsMod_lt _ _ RLWE_Q_pos⟩

/-- Witness for C9 at concrete inputs, including a successful threshold-1
reconstruction from constant shares. -/
theorem C9_coefficient_normalization_witness :
    (3 < MSG_SLOTS ∧ 3 < N
      ∧ reconstructSk ⟨1, 1, 1, fun _ => (1, 2)⟩ ⟨2, 1, 1, fun _ => (1, 2)⟩
          = some ((List.range N).map (fun _ => (2 : ℤ))))
    ∧ ((0 ≤ negacyclicMulModQ (fun _ => -5) (fun _ => 7) 4 RLWE_Q 2
        ∧ negacyclicMulModQ (fun _ => -5) (fun _ => 7) 4 RLWE_Q 2 < RLWE_Q)
      ∧ (0 ≤ rlweEncryptC0 (fun _ => 1) (fun _ => 1) (fun _ => 1) (fun _ => 1) 3
        ∧ rlweEncryptC0 (fun _ => 1) (fun _ => 1) (fun _ => 1) (fun _ => 1) 3 < RLWE_Q)
      ∧ (0 ≤ rlweEncryptC1 (fun _ => 1) (fun _ => 1) (fun _ => 1) 3
        ∧ rlweEncryptC1 (fun _ => 1) (fun _ => 1) (fun _ => 1) 3 < RLWE_Q)
      ∧ ∀ y ∈ (List.range N).map (fun _ => (2 : ℤ)), 0 ≤ y ∧ y < RLWE_Q) := by
  have hrec : reconstructSk ⟨1, 1, 1, fun _ => (1, 2)⟩ ⟨2, 1, 1, fun _ => (1, 2)⟩
      = some ((List.range N).map (fun _ => (2 : ℤ))) :=
    mapM_option_some (List.range N) _ (fun _ => (2 : ℤ)) (fun _ _ => rfl)
  exact ⟨⟨by norm_num [MSG_SLOTS], by norm_num [N], hrec⟩,
    ⟨C9_coefficient_normalization.1 (fun _ => -5) (fun _ => 7) 4 2,
      C9_coefficient_normalization.2.1 (fun _ => 1) (fun _ => 1) (fun _ => 1) (fun _ => 1) 3
        (by norm_num [MSG_SLOTS]),
      C9_coefficient_normalization.2.2.1 (fun _ => 1) (fun _ => 1) (fun _ => 1) 3
        (by norm_num [N]),
      C9_coefficient_normalization.2.2.2 _ _ _ hrec⟩⟩

/-- The BabyJubJub-style curve order `n` passed to `weierstrass` in the
source (BN254's base field order). -/
def BABYJUBJUB_N : ℤ :=
  21888242871839275222246405745257275088696311157297823662689037894645226208583

/-- `MAX_128_BIT = (1 << 128) - 1` from the source. -/
def MAX_128_BIT : ℤ := 2 ^ 128 - 1

/-- Embedding of `generateIdentityKeypair(secretKey)`: reduce the seed into
128 bits with the JS truncated remainder, then delegate to the curve's
scalar multiplication `BASE.multiply`, embedded as an abstract function
`mult` returning `none` where the library throws. -/
def generateIdentityKeypair (mult : ℤ → Option (ℤ × ℤ)) (secretKey : ℤ) :
    Option (ℤ × ℤ × ℤ) :=
  (mult (secretKey.tmod (MAX_128_BIT + 1))).map
    (fun pk => (secretKey.tmod (MAX_128_BIT + 1), pk))

/-- Witness for C7 at a two-leaf tree, leaf index 1. -/
theorem C7_proof_recombination_witness :
    (([5, 7] : List ℤ).length ≤ 2 ^ TREE_DEPTH ∧ 1 < ([5, 7] : List ℤ).length)
    ∧ ((getProof (fun a b => a + 2 * b) [5, 7] 1).length = TREE_DEPTH
      ∧ foldPath (fun a b => a + 2 * b) (getProof (fun a b => a + 2 * b) [5, 7] 1) 1
          (([5, 7] : List ℤ).getD 1 0) = getRoot (fun a b => a + 2 * b) [5, 7]) :=
  ⟨⟨by norm_num [TREE_DEPTH], by norm_num⟩,
    C7_proof_recombination (fun a b => a + 2 * b) [5, 7] 1 (by norm_num [TREE_DEPTH])
      (by norm_num)⟩

/-- C10: `generateIdentityKeypair` is not total on nonnegative seeds: under
the curve library's contract that scalar multiplication throws exactly on
scalars outside `[1, n)`, generation fails precisely when the seed is a
multiple of `2^128`; otherwise it returns `secretKey = seed mod 2^128`
(below `2^128`) together with the curve point produced for it. -/
theorem C10_keypair_totality (mult : ℤ → Option (ℤ × ℤ)) (seed : ℤ)
    (hmult : ∀ k, mult k = none ↔ (k < 1 ∨ BABYJUBJUB_N ≤ k))
    (hseed : 0 ≤ seed) :
    (generateIdentityKeypair mult seed = none ↔ (2 ^ 128 : ℤ) ∣ seed)
    ∧ ∀ kp, generateIdentityKeypair mult seed = some kp →
        kp.1 = seed.tmod (2 ^ 128) ∧ 0 ≤ kp.1 ∧ kp.1 < 2 ^ 128
          ∧ mult kp.1 = some kp.2 := by
  have h2 : MAX_128_BIT + 1 = (2 : ℤ) ^ 128 := by norm_num [MAX_128_BIT]
  have hskem : seed.tmod (MAX_128_BIT + 1) = seed % 2 ^ 128 := by
    rw [h2, Int.tmod_eq_emod hseed (by positivity)]
  have hsknn : 0 ≤ seed.tmod (MAX_128_BIT + 1) := by
    rw [hskem]
    exact Int.emod_nonneg _ (by positivity)
  have hsklt : seed.tmod (MAX_128_BIT + 1) < 2 ^ 128 := by
    rw [hskem]
    exact Int.emod_lt_of_pos _ (by positivity)
  have hpow : (2 : ℤ) ^ 128 = 340282366920938463463374607431768211456 := by norm_num
  have hN : (2 : ℤ) ^ 128 < BABYJUBJUB_N := by norm_num [BABYJUBJUB_N]
  constructor
  · unfold generateIdentityKeypair
    rw [Option.map_eq_none', hmult]
    constructor
    · rintro (h | h)
      · have h0 : seed % 2 ^ 128 = 0 := by omega
        exact Int.dvd_of_emod_eq_zero h0
      · exact absurd h (by omega)
    · intro hdvd
      left
      have h0 : seed % 2 ^ 128 = 0 := Int.emod_eq_zero_of_dvd hdvd
      omega
  · intro kp hkp
    unfold generateIdentityKeypair at hkp
    cases hm : mult (seed.tmod (MAX_128_BIT + 1)) with
    | none =>
      rw [hm] at hkp
      simp at hkp
    | some pk =>
      rw [hm] at hkp
      simp at hkp
      rw [← hkp]
      refine ⟨by rw [h2], hsknn, hsklt, ?_⟩
      rw [hm]

/-- Witness for C10 with an explicit scalar-multiplication model and
seed 5. -/
theorem C10_keypair_totality_witness :
    ((∀ k : ℤ, (if 1 ≤ k ∧ k < BABYJUBJUB_N then some (k, k + 1)
          else (none : Option (ℤ × ℤ))) = none ↔ (k < 1 ∨ BABYJUBJUB_N ≤ k))
      ∧ (0 : ℤ) ≤ 5)
    ∧ ((generateIdentityKeypair
          (fun k => if 1 ≤ k ∧ k < BABYJUBJUB_N then some (k, k + 1) else none) 5 = none
        ↔ (2 ^ 128 : ℤ) ∣ 5)
      ∧ ∀ kp, generateIdentityKeypair
          (fun k => if 1 ≤ k ∧ k < BABYJUBJUB_N then some (k, k + 1) else none) 5
            = some kp →
          kp.1 = (5 : ℤ).tmod (2 ^ 128) ∧ 0 ≤ kp.1 ∧ kp.1 < 2 ^ 128
            ∧ (if 1 ≤ kp.1 ∧ kp.1 < BABYJUBJUB_N then some (kp.1, kp.1 + 1) else none)
              = some kp.2) := by
  have hm : ∀ k : ℤ, (if 1 ≤ k ∧ k < BABYJUBJUB_N then some (k, k + 1)
      else (none : Option (ℤ × ℤ))) = none ↔ (k < 1 ∨ BABYJUBJUB_N ≤ k) := by
    intro k
    by_cases h : 1 ≤ k ∧ k < BABYJUBJUB_N
    · rw [if_pos h]
      simp
      omega
    · rw [if_neg h]
      simp
      omega
  exact ⟨⟨hm, by norm_num⟩,
    C10_keypair_totality (fun k => if 1 ≤ k ∧ k < BABYJUBJUB_N then some (k, k + 1) else none)
      5 hm (by norm_num)⟩

end ADP
